import Mathlib

/-!
Shallow embedding of g-sorcery's `package_db.py` (class `FileJSON`, class
`PackageDB` and helpers) and proofs about the frozen claims.

Modelling conventions:
* A JSON document is the inductive `JSON` below (strings, arrays, objects);
  numbers/booleans/null are not needed by any operation the claims touch.
* Python dicts are association lists (`AMap`): `ainsert` updates the first
  occurrence in place or appends (insertion-order semantics of dicts);
  `alookup` finds the first occurrence.
* The filesystem rooted at the database directory is a flat map from
  relative path strings to the JSON value stored in the file (`FS`).
  `json.dump(..., sort_keys=True)` normalises key order in the bytes; the
  model stores the value itself, since every claim compares file *contents*,
  not byte order of keys.  Directories exist exactly when some file lies
  under them.
* `hashlib.md5` hex digests of a file are modelled by `hashJ`, a
  deterministic serialisation of the stored JSON value.
* Python exceptions are `Except Err`; each operation returns the resulting
  filesystem alongside the outcome, because a raised exception leaves the
  files written so far on disk.
-/

inductive JSON where
  | str : String → JSON
  | arr : List JSON → JSON
  | obj : List (String × JSON) → JSON

mutual
def JSON.decEq : (a b : JSON) → Decidable (a = b)
  | .str a, .str b =>
    match String.decEq a b with
    | isTrue h => isTrue (by rw [h])
    | isFalse h => isFalse (by intro he; cases he; exact h rfl)
  | .str _, .arr _ => isFalse (by intro h; cases h)
  | .str _, .obj _ => isFalse (by intro h; cases h)
  | .arr _, .str _ => isFalse (by intro h; cases h)
  | .arr a, .arr b =>
    match JSON.decEqL a b with
    | isTrue h => isTrue (by rw [h])
    | isFalse h => isFalse (by intro he; cases he; exact h rfl)
  | .arr _, .obj _ => isFalse (by intro h; cases h)
  | .obj _, .str _ => isFalse (by intro h; cases h)
  | .obj _, .arr _ => isFalse (by intro h; cases h)
  | .obj a, .obj b =>
    match JSON.decEqO a b with
    | isTrue h => isTrue (by rw [h])
    | isFalse h => isFalse (by intro he; cases he; exact h rfl)

def JSON.decEqL : (a b : List JSON) → Decidable (a = b)
  | [], [] => isTrue rfl
  | [], _ :: _ => isFalse (by intro h; cases h)
  | _ :: _, [] => isFalse (by intro h; cases h)
  | x :: xs, y :: ys =>
    match JSON.decEq x y, JSON.decEqL xs ys with
    | isTrue h1, isTrue h2 => isTrue (by rw [h1, h2])
    | isFalse h1, _ => isFalse (by intro he; injection he with e1 e2; exact h1 e1)
    | _, isFalse h2 => isFalse (by intro he; injection he with e1 e2; exact h2 e2)

def JSON.decEqO : (a b : List (String × JSON)) → Decidable (a = b)
  | [], [] => isTrue rfl
  | [], _ :: _ => isFalse (by intro h; cases h)
  | _ :: _, [] => isFalse (by intro h; cases h)
  | (k, v) :: xs, (k2, v2) :: ys =>
    match String.decEq k k2, JSON.decEq v v2, JSON.decEqO xs ys with
    | isTrue h0, isTrue h1, isTrue h2 => isTrue (by rw [h0, h1, h2])
    | isFalse h0, _, _ => isFalse (by
        intro he; injection he with e1 e2
        exact h0 (congrArg Prod.fst e1))
    | _, isFalse h1, _ => isFalse (by
        intro he; injection he with e1 e2
        exact h1 (congrArg Prod.snd e1))
    | _, _, isFalse h2 => isFalse (by
        intro he; injection he with e1 e2; exact h2 e2)
end

instance : DecidableEq JSON := JSON.decEq

abbrev AMap (α : Type) := List (String × α)

def alookup {α : Type} : AMap α → String → Option α
  | [], _ => none
  | (k, v) :: t, key => if k = key then some v else alookup t key

def ainsert {α : Type} : AMap α → String → α → AMap α
  | [], key, val => [(key, val)]
  | (k, v) :: t, key, val =>
      if k = key then (key, val) :: t else (k, v) :: ainsert t key val

def akeys {α : Type} (l : AMap α) : List String := l.map Prod.fst

/-- Relative-path → file-content map: the database directory on disk. -/
abbrev FS := AMap JSON

/-- Error taxonomy.  The Python code raises bare `Exception`s (and `KeyError`
    in `FileJSON`); the constructors record which `raise` site fired.
    `missingManifest` is the spec's `MissingManifestError`; no code path
    raises it. -/
inductive Err where
  | keyError
  | ioError (path : String)
  | badManifest (name : String)
  | missingManifest
  | manifestError (errors : List String)
  | emptyCategory (category : String)
  | emptyPackage (name : String)
  | noCategory (category : String)
  | noPackage (name : String)
  | manifestCheckFailed
  | typeError
deriving DecidableEq

/-- Python `key in content` for the content shapes `FileJSON` stores:
    key membership for dicts, element membership for lists. -/
def jsonHasKey (j : JSON) (k : String) : Bool :=
  match j with
  | .obj l => (akeys l).contains k
  | .arr l => l.any (fun x => match x with | .str s => s = k | _ => false)
  | _ => false

/-- `FileJSON.read`: if the file is absent, create it holding one
    empty-string entry per mandatory key and return that record (parent
    directories come into existence implicitly in the path-map model);
    if present, return the content after checking every mandatory key
    (`raise KeyError` otherwise; extra keys are not inspected). -/
def fileJsonRead (fs : FS) (path : String) (mandatories : List String) :
    (Except Err JSON) × FS :=
  match alookup fs path with
  | none =>
    let content := JSON.obj (mandatories.map fun k => (k, JSON.str ""))
    (.ok content, ainsert fs path content)
  | some content =>
    if mandatories.all (fun k => jsonHasKey content k) then (.ok content, fs)
    else (.error .keyError, fs)

/-- `FileJSON.write`: `raise KeyError` if a mandatory key is missing from
    the content, else serialize the content to the file. -/
def fileJsonWrite (fs : FS) (path : String) (mandatories : List String)
    (content : JSON) : (Except Err Unit) × FS :=
  if mandatories.all (fun k => jsonHasKey content k) then
    (.ok (), ainsert fs path content)
  else (.error .keyError, fs)

mutual
/-- Model of `hash_file(path, hashlib.md5())`: a deterministic digest of the
    stored JSON value (a stand-in for the md5 hex digest of the bytes). -/
def hashJ : JSON → String
  | .str s => "s:" ++ s ++ ";"
  | .arr l => "a:" ++ hashL l ++ ";"
  | .obj l => "o:" ++ hashO l ++ ";"

def hashL : List JSON → String
  | [] => ""
  | x :: xs => hashJ x ++ "," ++ hashL xs

def hashO : List (String × JSON) → String
  | [] => ""
  | e :: xs => e.1 ++ "=" ++ hashJ e.2 ++ "," ++ hashO xs
end

/-- `hash_file` opens the file: absent file → `IOError`. -/
def hashFile (fs : FS) (path : String) : Except Err String :=
  match alookup fs path with
  | none => .error (.ioError path)
  | some c => .ok (hashJ c)

/-- The in-memory tree `self.db`: `info`, `categories`
    (category → description record) and `packages`
    (category → name → version → metadata record). -/
structure PkgDB where
  info : JSON
  categories : AMap JSON
  packages : AMap (AMap (AMap JSON))
deriving DecidableEq

/-- `Package = collections.namedtuple("Package", "category name version")` -/
structure Package where
  category : String
  name : String
  version : String
deriving DecidableEq

instance exceptDecEq {ε α : Type} [DecidableEq ε] [DecidableEq α] :
    DecidableEq (Except ε α) := fun a b =>
  match a, b with
  | .error x, .error y =>
    match decEq x y with
    | isTrue h => isTrue (by rw [h])
    | isFalse h => isFalse (by intro he; cases he; exact h rfl)
  | .error _, .ok _ => isFalse (by intro h; cases h)
  | .ok _, .error _ => isFalse (by intro h; cases h)
  | .ok x, .ok y =>
    match decEq x y with
    | isTrue h => isTrue (by rw [h])
    | isFalse h => isFalse (by intro he; cases he; exact h rfl)

/-- `reset_db`: fresh empty tree. -/
def emptyPkgDB : PkgDB := { info := .obj [], categories := [], packages := [] }

/-- `add_category`: registers (or re-registers) the category, storing the
    description and resetting the category's package mapping to `{}`. -/
def addCategory (db : PkgDB) (category : String) (description : JSON) : PkgDB :=
  { db with
    categories := ainsert db.categories category description,
    packages := ainsert db.packages category [] }

/-- `add_package`: `raise` for a category absent from `self.db['packages']`;
    otherwise create the name slot if needed and set the version's record. -/
def addPackage (db : PkgDB) (p : Package) (description : JSON) :
    Except Err PkgDB :=
  match alookup db.packages p.category with
  | none => .error (.noCategory p.category)
  | some pkgs =>
    let versions := match alookup pkgs p.name with
      | none => []
      | some vs => vs
    let pkgs2 := ainsert pkgs p.name (ainsert versions p.version description)
    .ok { db with packages := ainsert db.packages p.category pkgs2 }

/-- `list_categories`. -/
def listCategories (db : PkgDB) : List String := akeys db.categories

/-- `list_package_names`. -/
def listPackageNames (db : PkgDB) (category : String) :
    Except Err (List String) :=
  match alookup db.packages category with
  | none => .error (.noCategory category)
  | some pkgs => .ok (akeys pkgs)

/-- `list_package_versions`. -/
def listPackageVersions (db : PkgDB) (category name : String) :
    Except Err (List String) :=
  match alookup db.packages category with
  | none => .error (.noCategory category)
  | some pkgs =>
    match alookup pkgs name with
    | none => .error (.noPackage name)
    | some versions => .ok (akeys versions)

/-- `list_all_packages`: appends `Package(category, name, version)` in
    iteration order of the three nested mappings. -/
def listAllPackages (db : PkgDB) : List Package :=
  db.packages.foldl (fun acc ce =>
    ce.2.foldl (fun acc ne =>
      ne.2.foldl (fun acc ve => acc ++ [Package.mk ce.1 ne.1 ve.1]) acc) acc) []

/-- `get_package_description`: bare nested lookup, `KeyError` if absent. -/
def getPackageDescription (db : PkgDB) (p : Package) : Except Err JSON :=
  match alookup db.packages p.category with
  | none => .error .keyError
  | some pkgs =>
    match alookup pkgs p.name with
    | none => .error .keyError
    | some versions =>
      match alookup versions p.version with
      | none => .error .keyError
      | some d => .ok d

/-- The fixed top-level file names `[INFO_NAME, CATEGORIES_NAME, URI_NAME]`
    used by `manifest` and `check_manifest`. -/
def fixedNames : List String := ["info.json", "categories.json", "uri.json"]

/-- `uri['repo_uri']` / `uri['db_uri']` lookup; the mandatory-key check has
    already guaranteed presence, and the stored values are strings. -/
def jsonGetStr (j : JSON) (k : String) : String :=
  match j with
  | .obj l =>
    match alookup l k with
    | some (.str s) => s
    | _ => ""
  | _ => ""

def jsonSetKey (j : JSON) (k : String) (v : JSON) : JSON :=
  match j with
  | .obj l => .obj (ainsert l k v)
  | _ => j

/-- `reset_uri`: read `uri.json` (creating it with empty entries if absent),
    keep a supplied non-empty uri or fall back to the stored one, store both
    back into the file, and return the resulting `(repo_uri, db_uri)`. -/
def resetUri (fs : FS) (repoUri dbUri : String) :
    (Except Err (String × String)) × FS :=
  match fileJsonRead fs "uri.json" ["repo_uri", "db_uri"] with
  | (.error e, fs) => (.error e, fs)
  | (.ok uri, fs) =>
    let r := if repoUri = "" then jsonGetStr uri "repo_uri" else repoUri
    let d := if dbUri = "" then jsonGetStr uri "db_uri" else dbUri
    let uri := jsonSetKey (jsonSetKey uri "repo_uri" (.str r)) "db_uri" (.str d)
    match fileJsonWrite fs "uri.json" ["repo_uri", "db_uri"] uri with
    | (.error e, fs) => (.error e, fs)
    | (.ok _, fs) => (.ok (r, d), fs)

/-- `clean`: `shutil.rmtree` of the whole directory followed by `reset_uri`
    (the in-memory `reset_db` is the caller's `emptyPkgDB`). -/
def cleanFS (repoUri dbUri : String) : (Except Err (String × String)) × FS :=
  resetUri [] repoUri dbUri

/-- The directory skeleton `clean` leaves behind: only `uri.json`. -/
def skeletonFS (repoUri dbUri : String) : FS :=
  [("uri.json", .obj [("repo_uri", .str repoUri), ("db_uri", .str dbUri)])]

/-- Inner loop of `write`: `for version, content in versions.items()` writes
    `<category>/<package>/<version>.json` (mandatory-key list is empty, so
    `FileJSON.write` is a plain store). -/
def writeVersionsLoop (fs : FS) (pkgDir : String) (vcs : AMap JSON) : FS :=
  match vcs with
  | [] => fs
  | (v, content) :: rest =>
    writeVersionsLoop (ainsert fs (pkgDir ++ "/" ++ v ++ ".json") content)
      pkgDir rest

/-- `for package, versions in ...`: write every version record, then the
    `versions.json` listing of the package's versions. -/
def writePackagesLoop (fs : FS) (category : String)
    (pkgs : List (String × AMap JSON)) : FS :=
  match pkgs with
  | [] => fs
  | (name, versions) :: rest =>
    let pkgDir := category ++ "/" ++ name
    let fs := writeVersionsLoop fs pkgDir versions
    let fs := ainsert fs (pkgDir ++ "/" ++ "versions.json")
      (.arr ((akeys versions).map .str))
    writePackagesLoop fs category rest

/-- `for category in self.db['categories']`: `raise` if the category is
    absent from `self.db['packages']`, else write its packages and the
    `packages.json` listing. -/
def writeCategoriesLoop (db : PkgDB) (fs : FS) (cats : List (String × JSON)) :
    (Except Err Unit) × FS :=
  match cats with
  | [] => (.ok (), fs)
  | (category, _) :: rest =>
    match alookup db.packages category with
    | none => (.error (.emptyCategory category), fs)
    | some pkgs =>
      let fs := writePackagesLoop fs category pkgs
      let fs := ainsert fs (category ++ "/" ++ "packages.json")
        (.arr ((akeys pkgs).map .str))
      writeCategoriesLoop db fs rest

/-- `PackageDB.write`: serialize `info` and `categories` to their fixed
    files, then every category. -/
def writeDB (db : PkgDB) (fs : FS) : (Except Err Unit) × FS :=
  let fs := ainsert fs "info.json" db.info
  let fs := ainsert fs "categories.json" (.obj db.categories)
  writeCategoriesLoop db fs db.categories

/-- `os.path.isdir` / `os.walk` over a category: the files whose relative
    path lies under `<category>/`. -/
def fsUnder (fs : FS) (category : String) : List (String × JSON) :=
  fs.filter (fun e => (category ++ "/").data.isPrefixOf e.1.data)

/-- `manifest`'s loop over the three fixed top-level files. -/
def manifestFixedLoop (fs : FS) (names : List String) (acc : AMap JSON) :
    Except Err (AMap JSON) :=
  match names with
  | [] => .ok acc
  | n :: rest =>
    match hashFile fs n with
    | .error e => .error e
    | .ok h => manifestFixedLoop fs rest (ainsert acc n (.str h))

/-- `manifest`'s loop over the tracked categories: `raise` on a category
    with no directory, else hash every file under it. -/
def manifestEntriesLoop (fs : FS) (cats : List (String × JSON))
    (acc : AMap JSON) : Except Err (AMap JSON) :=
  match cats with
  | [] => .ok acc
  | (category, _) :: rest =>
    let files := fsUnder fs category
    if files.isEmpty then .error (.emptyCategory category)
    else
      manifestEntriesLoop fs rest
        (files.foldl (fun acc e => ainsert acc e.1 (.str (hashJ e.2))) acc)

/-- `PackageDB.manifest`: read `categories.json` (created empty if absent),
    hash the three fixed files and every file under every listed category,
    and store the mapping in `manifest.json`. -/
def manifestDB (fs : FS) : (Except Err Unit) × FS :=
  match fileJsonRead fs "categories.json" [] with
  | (.error e, fs) => (.error e, fs)
  | (.ok catsJson, fs) =>
    match catsJson with
    | .obj cats =>
      match manifestFixedLoop fs fixedNames [] with
      | .error e => (.error e, fs)
      | .ok acc =>
        match manifestEntriesLoop fs cats acc with
        | .error e => (.error e, fs)
        | .ok manifest => (.ok (), ainsert fs "manifest.json" (.obj manifest))
    | _ => (.error .typeError, fs)

/-- `check_manifest`'s loop `for name, value in manifest.items()`: recompute
    each listed file's hash (opening a deleted file raises `IOError`) and
    collect the names whose recorded value differs. -/
def checkEntries (fs : FS) (entries : List (String × JSON)) :
    Except Err (List String) :=
  match entries with
  | [] => .ok []
  | (name, value) :: rest =>
    match alookup fs name with
    | none => .error (.ioError name)
    | some content =>
      match checkEntries fs rest with
      | .error e => .error e
      | .ok errs =>
        .ok (if value = JSON.str (hashJ content) then errs else name :: errs)

/-- `PackageDB.check_manifest`: read `manifest.json` via `FileJSON.read`
    (so an absent manifest is silently created empty), `raise` if any of the
    three fixed entries is missing, then return
    `(no mismatch, mismatched names)`. -/
def checkManifest (fs : FS) : (Except Err (Bool × List String)) × FS :=
  match fileJsonRead fs "manifest.json" [] with
  | (.error e, fs) => (.error e, fs)
  | (.ok mjson, fs) =>
    match mjson with
    | .obj manifest =>
      match fixedNames.find? (fun n => !((akeys manifest).contains n)) with
      | some n => (.error (.badManifest n), fs)
      | none =>
        match checkEntries fs manifest with
        | .error e => (.error e, fs)
        | .ok errs => (.ok (errs.isEmpty, errs), fs)
    | _ => (.error .typeError, fs)

/-- A JSON array of strings (`packages.json` / `versions.json` listings);
    anything else would make the Python loop over non-string entries blow
    up in `os.path.join`. -/
def strItems : List JSON → Option (List String)
  | [] => some []
  | .str s :: rest =>
    match strItems rest with
    | some l => some (s :: l)
    | none => none
  | _ => none

def asStrList (j : JSON) : Option (List String) :=
  match j with
  | .arr l => strItems l
  | _ => none

/-- `read`'s innermost loop: `for version in versions` reads each
    `<version>.json` record into the package's mapping. -/
def readVersionsLoop (fs : FS) (pkgDir : String) (vs : List String)
    (acc : AMap JSON) : (Except Err (AMap JSON)) × FS :=
  match vs with
  | [] => (.ok acc, fs)
  | v :: rest =>
    match fileJsonRead fs (pkgDir ++ "/" ++ v ++ ".json") [] with
    | (.error e, fs) => (.error e, fs)
    | (.ok description, fs) =>
      readVersionsLoop fs pkgDir rest (ainsert acc v description)

/-- `read`'s middle loop: `for name in packages`.  The source re-tests
    `os.path.isdir(category_path)` (sic: the category path, not the package
    path) before reading `versions.json`; an empty versions listing is an
    "Empty package" error. -/
def readPackagesLoop (fs : FS) (category : String) (names : List String)
    (acc : AMap (AMap JSON)) : (Except Err (AMap (AMap JSON))) × FS :=
  match names with
  | [] => (.ok acc, fs)
  | name :: rest =>
    if (fsUnder fs category).isEmpty then
      (.error (.emptyPackage (category ++ "/" ++ name)), fs)
    else
      let pkgDir := category ++ "/" ++ name
      match fileJsonRead fs (pkgDir ++ "/" ++ "versions.json") [] with
      | (.error e, fs) => (.error e, fs)
      | (.ok versionsJson, fs) =>
        match asStrList versionsJson with
        | none => (.error .typeError, fs)
        | some versions =>
          if versions.isEmpty then
            (.error (.emptyPackage (category ++ "/" ++ name)), fs)
          else
            match readVersionsLoop fs pkgDir versions [] with
            | (.error e, fs) => (.error e, fs)
            | (.ok vrecords, fs) =>
              readPackagesLoop fs category rest (ainsert acc name vrecords)

/-- `read`'s outer loop: `for category in self.db['categories']`.  A
    category with no directory or an empty `packages.json` listing is an
    "Empty category" error.  `acc` is the instance's current
    `self.db['packages']` — `read` never clears it first. -/
def readCategoriesLoop (fs : FS) (cats : List (String × JSON))
    (acc : AMap (AMap (AMap JSON))) :
    (Except Err (AMap (AMap (AMap JSON)))) × FS :=
  match cats with
  | [] => (.ok acc, fs)
  | (category, _) :: rest =>
    if (fsUnder fs category).isEmpty then
      (.error (.emptyCategory category), fs)
    else
      match fileJsonRead fs (category ++ "/" ++ "packages.json") [] with
      | (.error e, fs) => (.error e, fs)
      | (.ok packagesJson, fs) =>
        match asStrList packagesJson with
        | none => (.error .typeError, fs)
        | some names =>
          if names.isEmpty then (.error (.emptyCategory category), fs)
          else
            match readPackagesLoop fs category names [] with
            | (.error e, fs) => (.error e, fs)
            | (.ok pkgs, fs) => readCategoriesLoop fs rest (ainsert acc category pkgs)

/-- `PackageDB.read`: `check_manifest` first (`raise` when it reports a
    mismatch), then rebuild the in-memory tree from `info.json`,
    `categories.json`, and the per-category listings.  `db0` is the
    instance's tree before the call. -/
def readDB (db0 : PkgDB) (fs : FS) : (Except Err PkgDB) × FS :=
  match checkManifest fs with
  | (.error e, fs) => (.error e, fs)
  | (.ok (sane, errors), fs) =>
    if !sane then (.error (.manifestError errors), fs)
    else
      match fileJsonRead fs "info.json" [] with
      | (.error e, fs) => (.error e, fs)
      | (.ok info, fs) =>
        match fileJsonRead fs "categories.json" [] with
        | (.error e, fs) => (.error e, fs)
        | (.ok catsJson, fs) =>
          match catsJson with
          | .obj cats =>
            match readCategoriesLoop fs cats db0.packages with
            | (.error e, fs) => (.error e, fs)
            | (.ok packages, fs) =>
              (.ok { info := info, categories := cats, packages := packages }, fs)
          | _ => (.error .typeError, fs)

/-- `copy_all(src, dst)`: copy every entry of `src` over `dst`;
    existing files of the same name are overwritten. -/
def overlayFS (dst src : FS) : FS :=
  src.foldl (fun acc e => ainsert acc e.1 e.2) dst

/-- A non-empty Python tuple is truthy whatever it holds, so
    `if not tempdb.check_manifest():` tests this, not the check's outcome. -/
def tupleTruthy (r : Bool × List String) : Bool := true

/-- `PackageDB.sync`, with the transport abstracted: `staged` is the file
    map the extracted archive members leave in the scratch database
    directory via `copy_all` (the base class's own `get_real_db_uri` lacks
    `self` and the `wget`/`tarfile` steps are outside the model; the model
    starts an attempt that has fetched and extracted successfully).
    Faithful to the source's control flow:
    1. `self.clean()` — the local tree is deleted *before* anything is
       validated, leaving only the uri skeleton;
    2. a scratch `PackageDB` is created (its `__init__` writes a blank
       `uri.json`) and the extracted files are copied over it;
    3. `if not tempdb.check_manifest():` — the tuple is always truthy, so
       the `raise` is dead code and only exceptions escaping
       `check_manifest` itself abort here;
    4. `self.clean()` again, then the staged files are copied into the
       local directory;
    5. the same vacuous truthiness test on the local `check_manifest`;
    6. `self.read()` reloads memory (this is where a hash mismatch
       finally raises, after the local tree has been replaced). -/
def syncModel (localFS : FS) (repoUri dbUri : String) (staged : FS) :
    (Except Err PkgDB) × FS :=
  match cleanFS repoUri dbUri with
  | (.error e, fs) => (.error e, fs)
  | (.ok _, fsClean) =>
    let tempFS := overlayFS (skeletonFS "" "") staged
    match checkManifest tempFS with
    | (.error e, _) => (.error e, fsClean)
    | (.ok res, tempFS) =>
      if !(tupleTruthy res) then (.error .manifestCheckFailed, fsClean)
      else
        match cleanFS repoUri dbUri with
        | (.error e, fs) => (.error e, fs)
        | (.ok _, fs) =>
          let fs := overlayFS fs tempFS
          match checkManifest fs with
          | (.error e, fs) => (.error e, fs)
          | (.ok res2, fs) =>
            if !(tupleTruthy res2) then (.error .manifestCheckFailed, fs)
            else readDB emptyPkgDB fs

/-- The two tree-building operations of the public API; a trace of these is
    what "a tree built by a sequence of add_category and add_package calls"
    means. -/
inductive DBOp where
  | addCat (category : String) (description : JSON)
  | addPkg (p : Package) (description : JSON)
deriving DecidableEq

/-- Run a trace of API calls from a given tree; a raising `add_package`
    aborts the trace like the Python exception would. -/
def applyOps (db : PkgDB) : List DBOp → Except Err PkgDB
  | [] => .ok db
  | .addCat c d :: rest => applyOps (addCategory db c d) rest
  | .addPkg p r :: rest =>
    match addPackage db p r with
    | .error e => .error e
    | .ok db2 => applyOps db2 rest

/-- Generic in-order merge of one association map over another
    (`overlayFS` at any value type). -/
def amerge {α : Type} (dst src : AMap α) : AMap α :=
  src.foldl (fun acc e => ainsert acc e.1 e.2) dst

def noSlash (s : String) : Bool := s.data.all (fun c => !(c = '/'))

/-- Invariants every tree reachable through `add_category`/`add_package`
    with non-empty categories satisfies, plus the name-sanity conditions
    under which `os.path.join`-built relative paths cannot collide:
    no separator inside a category, package or version name, and no version
    literally called "versions" (its file would clash with `versions.json`).
    The key-list equality holds because the two mutations of `add_category`
    touch `categories` and `packages` in lockstep. -/
def SaneTree (db : PkgDB) : Prop :=
  akeys db.categories = akeys db.packages ∧
  (akeys db.categories).Nodup ∧
  (∀ ce ∈ db.categories, noSlash ce.1 = true) ∧
  ∀ pe ∈ db.packages,
    pe.2 ≠ [] ∧ (akeys pe.2).Nodup ∧
    ∀ ne ∈ pe.2, noSlash ne.1 = true ∧ ne.2 ≠ [] ∧ (akeys ne.2).Nodup ∧
      ∀ ve ∈ ne.2, noSlash ve.1 = true ∧ ve.1 ≠ "versions"

instance (db : PkgDB) : Decidable (SaneTree db) := by
  unfold SaneTree; infer_instance

/-- The files `write` stores for one package, in write order. -/
def packageFiles (category : String) (ne : String × AMap JSON) : FS :=
  ne.2.map (fun ve =>
    (category ++ "/" ++ ne.1 ++ "/" ++ ve.1 ++ ".json", ve.2)) ++
  [(category ++ "/" ++ ne.1 ++ "/" ++ "versions.json",
    JSON.arr ((akeys ne.2).map .str))]

/-- The files `write` stores for one category, in write order. -/
def categoryFiles (category : String) (pkgs : AMap (AMap JSON)) : FS :=
  (pkgs.map (packageFiles category)).flatten ++
  [(category ++ "/" ++ "packages.json", JSON.arr ((akeys pkgs).map .str))]

/-- Every file under a category directory that `write` produces. -/
def treeFiles (db : PkgDB) : FS :=
  (db.categories.map (fun ce =>
    categoryFiles ce.1 ((alookup db.packages ce.1).getD []))).flatten

/-- Everything `write` stores, in write order. -/
def flatWrites (db : PkgDB) : FS :=
  [("info.json", db.info), ("categories.json", JSON.obj db.categories)] ++
  treeFiles db

/-- The manifest `manifest` computes over a freshly written tree whose
    `uri.json` holds `(repoUri, dbUri)`. -/
def manifestOf (db : PkgDB) (repoUri dbUri : String) : AMap JSON :=
  [("info.json", JSON.str (hashJ db.info)),
   ("categories.json", JSON.str (hashJ (.obj db.categories))),
   ("uri.json", JSON.str (hashJ (.obj [("repo_uri", .str repoUri),
                                       ("db_uri", .str dbUri)])))] ++
  (treeFiles db).map (fun e => (e.1, JSON.str (hashJ e.2)))

/-- Directory state after `clean` + `write()` + `manifest()` (`generate`'s
    disk effect for a tree already in memory). -/
def writtenFS (db : PkgDB) (repoUri dbUri : String) : FS :=
  (manifestDB (writeDB db (skeletonFS repoUri dbUri)).2).2

/-- The `write()` → `manifest()` → fresh-instance (`reset_uri`) → `read()`
    pipeline, started on a clean directory. -/
def roundTrip (db : PkgDB) (repoUri dbUri : String) : Except Err PkgDB :=
  match writeDB db (skeletonFS repoUri dbUri) with
  | (.error e, _) => .error e
  | (.ok _, fs) =>
    match manifestDB fs with
    | (.error e, _) => .error e
    | (.ok _, fs) =>
      match resetUri fs "" "" with
      | (.error e, _) => .error e
      | (.ok _, fs) => (readDB emptyPkgDB fs).1

/-- The pipeline exactly as claim C3 words it: `write()` and then `read()`
    on a fresh instance, with no intervening `manifest()`. -/
def roundTripNoManifest (db : PkgDB) (repoUri dbUri : String) :
    Except Err PkgDB :=
  match writeDB db (skeletonFS repoUri dbUri) with
  | (.error e, _) => .error e
  | (.ok _, fs) =>
    match resetUri fs "" "" with
    | (.error e, _) => .error e
    | (.ok _, fs) => (readDB emptyPkgDB fs).1

/-- Stated from the spec's words for comparison with `checkEntries`: the
    listed paths whose recomputed hash differs from the recorded value
    (an unreadable listed file counts as differing; `check_manifest`
    actually raises `IOError` there, which the hypotheses rule out). -/
def mismatchedEntries (fs : FS) (entries : AMap JSON) : List String :=
  (entries.filter (fun e =>
    match alookup fs e.1 with
    | some c => !(decide (e.2 = JSON.str (hashJ c)))
    | none => true)).map Prod.fst

/-- What `list_all_packages` collects, written as a flat map: every
    (category, name, version) triple in iteration order. -/
def allPackagesOf (db : PkgDB) : List Package :=
  db.packages.flatMap (fun ce =>
    ce.2.flatMap (fun ne => ne.2.map (fun ve => Package.mk ce.1 ne.1 ve.1)))

/-- The spec's test scenario: `add_category("app-test")` then
    `add_package(Package("app-test","metadata_tester","0.1"),
    {"description": "testing ebuild"})`. -/
def sampleDB : PkgDB :=
  { info := .obj [],
    categories := [("app-test", .obj [])],
    packages := [("app-test",
      [("metadata_tester",
        [("0.1", .obj [("description", .str "testing ebuild")])])])] }

/-- A staged remote tree whose recorded hash for `info.json` is wrong:
    a correctly generated tree whose `info.json` was then replaced, so the
    manifest no longer matches it. -/
def stagedBad : FS :=
  ainsert (writtenFS sampleDB "" "") "info.json" (.obj [("x", .str "corrupt")])

/-- The paths of one package's files relative to its category directory. -/
def packageRelPaths (ne : String × AMap JSON) : List String :=
  ne.2.map (fun ve => ne.1 ++ "/" ++ ve.1 ++ ".json") ++
  [ne.1 ++ "/" ++ "versions.json"]

/-- The paths of one category's files relative to the category directory. -/
def categoryRelPaths (pkgs : AMap (AMap JSON)) : List String :=
  (pkgs.map packageRelPaths).flatten ++ ["packages.json"]

/-! ### Association-map lemmas -/

theorem alookup_ainsert {α : Type} (l : AMap α) (k : String) (v : α)
    (q : String) :
    alookup (ainsert l k v) q = if q = k then some v else alookup l q := by
  induction l with
  | nil =>
    by_cases h : q = k
    · simp [ainsert, alookup, h]
    · simp [ainsert, alookup, h, Ne.symm h]
  | cons e t ih =>
    obtain ⟨k2, v2⟩ := e
    by_cases h2 : k2 = k
    · subst h2
      by_cases h : q = k2
      · simp [ainsert, alookup, h]
      · simp [ainsert, alookup, h, Ne.symm h]
    · by_cases h : q = k2
      · subst h
        simp [ainsert, alookup, h2, Ne.symm h2]
      · simp [ainsert, alookup, h2, Ne.symm h, ih]

theorem ainsert_of_not_mem {α : Type} (l : AMap α) (k : String) (v : α)
    (h : k ∉ akeys l) : ainsert l k v = l ++ [(k, v)] := by
  induction l with
  | nil => simp [ainsert]
  | cons e t ih =>
    simp only [akeys, List.map_cons, List.mem_cons] at h
    push_neg at h
    have h1 : ¬ e.1 = k := Ne.symm h.1
    have h2 := ih (by simpa [akeys] using h.2)
    simp [ainsert, h1, h2]

theorem alookup_append {α : Type} (l m : AMap α) (q : String) :
    alookup (l ++ m) q =
      match alookup l q with
      | some v => some v
      | none => alookup m q := by
  induction l with
  | nil => simp [alookup]
  | cons e t ih =>
    obtain ⟨k, v⟩ := e
    by_cases h : k = q <;> simp [alookup, h, ih]

theorem alookup_eq_none {α : Type} (l : AMap α) (q : String) :
    alookup l q = none ↔ q ∉ akeys l := by
  induction l with
  | nil => simp [alookup, akeys]
  | cons e t ih =>
    obtain ⟨k, v⟩ := e
    by_cases h : k = q <;> simp [alookup, akeys, h, ih] <;> tauto

theorem alookup_of_mem_nodup {α : Type} (l : AMap α) (k : String) (v : α)
    (hmem : (k, v) ∈ l) (hnd : (akeys l).Nodup) : alookup l k = some v := by
  induction l with
  | nil => cases hmem
  | cons e t ih =>
    obtain ⟨k2, v2⟩ := e
    simp only [akeys, List.map_cons, List.nodup_cons] at hnd
    rcases List.mem_cons.1 hmem with h | h
    · obtain ⟨rfl, rfl⟩ := Prod.mk.injEq .. ▸ h
      simp [alookup]
    · have hne : k2 ≠ k := by
        rintro rfl
        exact hnd.1 (List.mem_map.2 ⟨(k2, v), h, rfl⟩)
      simp [alookup, hne, ih h hnd.2]

theorem amerge_append {α : Type} (dst : AMap α) (a b : AMap α) :
    amerge dst (a ++ b) = amerge (amerge dst a) b := by
  simp [amerge, List.foldl_append]

theorem amerge_of_fresh {α : Type} (src : AMap α) : ∀ (dst : AMap α),
    (akeys src).Nodup → (∀ k ∈ akeys src, k ∉ akeys dst) →
    amerge dst src = dst ++ src := by
  induction src with
  | nil => intro dst _ _; simp [amerge]
  | cons e t ih =>
    intro dst hnd hdisj
    obtain ⟨k, v⟩ := e
    have hcons : akeys ((k, v) :: t) = k :: akeys t := rfl
    rw [hcons, List.nodup_cons] at hnd
    have hk : k ∉ akeys dst := hdisj k (by rw [hcons]; exact List.mem_cons_self k _)
    have step : amerge dst ((k, v) :: t) = amerge (dst ++ [(k, v)]) t := by
      simp [amerge, ainsert_of_not_mem dst k v hk]
    have hdisj2 : ∀ q ∈ akeys t, q ∉ akeys (dst ++ [(k, v)]) := by
      intro q hq
      have hqd : q ∉ akeys dst :=
        hdisj q (by rw [hcons]; exact List.mem_cons_of_mem _ hq)
      have hkeys : akeys (dst ++ [(k, v)]) = akeys dst ++ [k] := by
        simp [akeys]
      rw [hkeys]
      simp only [List.mem_append, List.mem_singleton]
      rintro (hc | rfl)
      · exact hqd hc
      · exact hnd.1 hq
    rw [step, ih (dst ++ [(k, v)]) hnd.2 hdisj2, List.append_assoc]
    rfl

theorem rebuild_eq_self {α : Type} (m : AMap α) (dflt : α)
    (hnd : (akeys m).Nodup) :
    (akeys m).map (fun k => (k, (alookup m k).getD dflt)) = m := by
  have h1 : (akeys m).map (fun k => (k, (alookup m k).getD dflt))
      = m.map (fun e => (e.1, (alookup m e.1).getD dflt)) := by
    simp [akeys, List.map_map]
  have h2 : ∀ e ∈ m, (e.1, (alookup m e.1).getD dflt) = id e := by
    intro e he
    have h3 := alookup_of_mem_nodup m e.1 e.2 (by simpa using he) hnd
    simp [h3, id]
  rw [h1, List.map_congr_left h2, List.map_id]

/-! ### Claim C9 -/

/-- C9: re-adding a category via `add_category` stores the newly supplied
    description for it and resets its package mapping to the empty map,
    discarding every package previously added under it (last write wins). -/
theorem c9_addCategory_resets (db : PkgDB) (c : String) (d : JSON) :
    alookup (addCategory db c d).categories c = some d ∧
    alookup (addCategory db c d).packages c = some [] := by
  constructor <;> simp [addCategory, alookup_ainsert]

/-! ### Claim C10 -/

/-- C10: when the category is registered, `add_package` succeeds and changes
    only the record at its own (category, name, version) triple: `info`,
    the categories map, and the record of every other triple are unchanged. -/
theorem c10_addPackage_frame (db : PkgDB) (p : Package) (r : JSON)
    (pkgs : AMap (AMap JSON))
    (hreg : alookup db.packages p.category = some pkgs) :
    ∃ db2, addPackage db p r = .ok db2 ∧
      db2.info = db.info ∧ db2.categories = db.categories ∧
      getPackageDescription db2 p = .ok r ∧
      ∀ q : Package, q ≠ p →
        getPackageDescription db2 q = getPackageDescription db q := by
  refine ⟨{ db with packages := ainsert db.packages p.category (ainsert pkgs p.name (ainsert (match alookup pkgs p.name with | none => [] | some vs => vs) p.version r)) }, ?_, rfl, rfl, ?_, ?_⟩
  · simp only [addPackage, hreg]
  · simp [getPackageDescription, alookup_ainsert]
  · intro q hq
    by_cases hc : q.category = p.category
    · by_cases hn : q.name = p.name
      · have hvne : q.version ≠ p.version := by
          intro hveq
          exact hq (by cases q; cases p; simp_all)
        cases hvp : alookup pkgs p.name with
        | none =>
          simp [getPackageDescription, alookup_ainsert, hc, hn, hvp, hvne,
            Ne.symm hvne, hreg, alookup]
        | some vs =>
          simp [getPackageDescription, alookup_ainsert, hc, hn, hvp, hvne,
            hreg]
      · simp [getPackageDescription, alookup_ainsert, hc, hn, hreg]
    · simp [getPackageDescription, alookup_ainsert, hc]

/-- Witness for C10 at the spec's sample package. -/
theorem c10_addPackage_frame_witness :
    ∃ db2, addPackage sampleDB ⟨"app-test", "other", "1.0"⟩ (.obj []) = .ok db2 ∧
      db2.info = sampleDB.info ∧ db2.categories = sampleDB.categories ∧
      getPackageDescription db2 ⟨"app-test", "other", "1.0"⟩ = .ok (.obj []) ∧
      ∀ q : Package, q ≠ ⟨"app-test", "other", "1.0"⟩ →
        getPackageDescription db2 q = getPackageDescription sampleDB q :=
  c10_addPackage_frame sampleDB ⟨"app-test", "other", "1.0"⟩ (.obj [])
    [("metadata_tester", [("0.1", .obj [("description", .str "testing ebuild")])])]
    (by decide)

/-! ### Claim C7 -/

/-- A category never passed to `add_category` in a trace stays absent from
    `self.db['packages']`. -/
theorem applyOps_no_addCat (ops : List DBOp) : ∀ (db0 db : PkgDB) (c : String),
    alookup db0.packages c = none →
    (∀ d, DBOp.addCat c d ∉ ops) →
    applyOps db0 ops = .ok db →
    alookup db.packages c = none := by
  induction ops with
  | nil =>
    intro db0 db c h0 _ happ
    simp only [applyOps] at happ
    injection happ with h
    rw [← h]
    exact h0
  | cons op rest ih =>
    intro db0 db c h0 hnot happ
    cases op with
    | addCat c2 d =>
      have hne : c2 ≠ c := by
        rintro rfl
        exact hnot d (List.mem_cons_self _ _)
      have h1 : alookup (addCategory db0 c2 d).packages c = none := by
        simp [addCategory, alookup_ainsert, Ne.symm hne, h0]
      exact ih (addCategory db0 c2 d) db c h1
        (fun d2 hm => hnot d2 (List.mem_cons_of_mem _ hm)) happ
    | addPkg p r =>
      simp only [applyOps] at happ
      cases haddp : addPackage db0 p r with
      | error e => rw [haddp] at happ; cases happ
      | ok db1 =>
        rw [haddp] at happ
        have h1 : alookup db1.packages c = none := by
          simp only [addPackage] at haddp
          cases hl : alookup db0.packages p.category with
          | none => rw [hl] at haddp; cases haddp
          | some pkgs =>
            rw [hl] at haddp
            simp only [Except.ok.injEq] at haddp
            have hne : p.category ≠ c := by
              rintro rfl
              rw [hl] at h0
              cases h0
            rw [← haddp]
            simp [alookup_ainsert, Ne.symm hne, h0]
        exact ih db1 db c h1
          (fun d2 hm => hnot d2 (List.mem_cons_of_mem _ hm)) happ

/-- C7: `add_package` on a package whose category was never registered by
    `add_category` anywhere in the trace that built the tree fails with the
    not-found error (and, being error-returning, adds nothing); on a
    registered category it succeeds, creating the name and version slots as
    needed, and the record stored at the exact triple afterwards is the new
    one (overwriting any previous record there). -/
theorem c7_addPackage_spec :
    (∀ (ops : List DBOp) (db : PkgDB) (p : Package) (r : JSON),
        applyOps emptyPkgDB ops = .ok db →
        (∀ d, DBOp.addCat p.category d ∉ ops) →
        addPackage db p r = .error (Err.noCategory p.category))
  ∧ (∀ (db : PkgDB) (p : Package) (r : JSON) (pkgs : AMap (AMap JSON)),
        alookup db.packages p.category = some pkgs →
        ∃ db2, addPackage db p r = .ok db2 ∧
          getPackageDescription db2 p = .ok r) := by
  constructor
  · intro ops db p r happ hnot
    have h := applyOps_no_addCat ops emptyPkgDB db p.category
      (by simp [emptyPkgDB, alookup]) hnot happ
    simp [addPackage, h]
  · intro db p r pkgs hreg
    refine ⟨{ db with packages := ainsert db.packages p.category (ainsert pkgs p.name (ainsert (match alookup pkgs p.name with | none => [] | some vs => vs) p.version r)) }, ?_, ?_⟩
    · simp only [addPackage, hreg]
    · simp [getPackageDescription, alookup_ainsert]

/-- Witness for C7: the spec's own example
    `add_package(Package("missing","p","1"), {})` against a tree that only
    ever registered "app-test", and a successful overwrite at the sample
    triple. -/
theorem c7_addPackage_spec_witness :
    addPackage sampleDB ⟨"missing", "p", "1"⟩ (.obj []) =
        .error (Err.noCategory "missing")
  ∧ ∃ db2, addPackage sampleDB ⟨"app-test", "metadata_tester", "0.1"⟩
        (.obj [("k", .str "new")]) = .ok db2 ∧
      getPackageDescription db2 ⟨"app-test", "metadata_tester", "0.1"⟩ =
        .ok (.obj [("k", .str "new")]) := by
  constructor
  · exact c7_addPackage_spec.1
      [.addCat "app-test" (.obj []),
       .addPkg ⟨"app-test", "metadata_tester", "0.1"⟩
         (.obj [("description", .str "testing ebuild")])]
      sampleDB ⟨"missing", "p", "1"⟩ (.obj []) (by decide)
      (by
        intro d hd
        rcases List.mem_cons.1 hd with h | h
        · injection h with h1 h2
          exact absurd h1 (by decide)
        · rcases List.mem_cons.1 h with h2 | h2
          · cases h2
          · cases h2)
  · exact c7_addPackage_spec.2 sampleDB ⟨"app-test", "metadata_tester", "0.1"⟩
      (.obj [("k", .str "new")])
      [("metadata_tester", [("0.1", .obj [("description", .str "testing ebuild")])])]
      (by decide)

/-! ### Claim C8 -/

theorem bind_cons_eq {α β : Type} (x : α) (xs : List α) (g : α → List β) :
    (x :: xs).flatMap g = g x ++ xs.flatMap g := rfl

theorem bind_singleton_map {α β : Type} (l : List α) (f : α → β) :
    l.flatMap (fun x => [f x]) = l.map f := by
  induction l with
  | nil => rfl
  | cons x xs ih => rw [bind_cons_eq, ih]; rfl

theorem foldl_append_bind {α β : Type} (g : α → List β)
    (step : List β → α → List β) (hstep : ∀ acc x, step acc x = acc ++ g x) :
    ∀ (l : List α) (init : List β),
      l.foldl step init = init ++ l.flatMap g := by
  intro l
  induction l with
  | nil => intro init; simp
  | cons x xs ih =>
    intro init
    rw [List.foldl_cons, hstep, ih, bind_cons_eq, List.append_assoc]

/-- `list_all_packages` appends, per category then name then version, one
    `Package` per triple: it equals the flat map `allPackagesOf`. -/
theorem listAllPackages_eq (db : PkgDB) :
    listAllPackages db = allPackagesOf db := by
  unfold listAllPackages allPackagesOf
  rw [foldl_append_bind
    (fun ce => ce.2.flatMap (fun ne => ne.2.map (fun ve => Package.mk ce.1 ne.1 ve.1)))]
  · simp
  · intro acc ce
    rw [foldl_append_bind
      (fun ne => ne.2.map (fun ve => Package.mk ce.1 ne.1 ve.1))]
    intro acc2 ne
    rw [foldl_append_bind (fun ve => [Package.mk ce.1 ne.1 ve.1])]
    · rw [bind_singleton_map]
    · intro acc3 ve; rfl

/-- C8: the four listing operations are pure lookups — in this functional
    embedding they are plain functions of the tree value and return no
    modified tree — and the ones that take a category or package name fail
    with the not-found error exactly on an unknown category/name:
    `list_package_names` errors iff the category is unregistered,
    `list_package_versions` errors iff the category or then the name is
    unknown, while `list_categories` and the argument-less
    `list_all_packages` always return their listing. -/
theorem c8_listings_spec :
    (∀ (db : PkgDB) (c : String),
        (alookup db.packages c = none →
          listPackageNames db c = .error (Err.noCategory c))
      ∧ (∀ pkgs, alookup db.packages c = some pkgs →
          listPackageNames db c = .ok (akeys pkgs)))
  ∧ (∀ (db : PkgDB) (c n : String),
        (alookup db.packages c = none →
          listPackageVersions db c n = .error (Err.noCategory c))
      ∧ (∀ pkgs, alookup db.packages c = some pkgs → alookup pkgs n = none →
          listPackageVersions db c n = .error (Err.noPackage n))
      ∧ (∀ pkgs vs, alookup db.packages c = some pkgs →
          alookup pkgs n = some vs →
          listPackageVersions db c n = .ok (akeys vs)))
  ∧ (∀ db : PkgDB, listCategories db = akeys db.categories)
  ∧ (∀ db : PkgDB, listAllPackages db = allPackagesOf db) := by
  refine ⟨?_, ?_, fun _ => rfl, listAllPackages_eq⟩
  · intro db c
    constructor
    · intro h; simp [listPackageNames, h]
    · intro pkgs h; simp [listPackageNames, h]
  · intro db c n
    refine ⟨?_, ?_, ?_⟩
    · intro h; simp [listPackageVersions, h]
    · intro pkgs h h2; simp [listPackageVersions, h, h2]
    · intro pkgs vs h h2; simp [listPackageVersions, h, h2]

/-- Witness for C8 on the sample tree: unknown lookups fail, known ones
    return the listings. -/
theorem c8_listings_spec_witness :
    listPackageNames sampleDB "missing" = .error (Err.noCategory "missing")
  ∧ listPackageNames sampleDB "app-test" = .ok ["metadata_tester"]
  ∧ listPackageVersions sampleDB "missing" "p" = .error (Err.noCategory "missing")
  ∧ listPackageVersions sampleDB "app-test" "nope" = .error (Err.noPackage "nope")
  ∧ listPackageVersions sampleDB "app-test" "metadata_tester" = .ok ["0.1"]
  ∧ listCategories sampleDB = ["app-test"]
  ∧ listAllPackages sampleDB = allPackagesOf sampleDB := by
  refine ⟨?_, ?_, ?_, ?_, ?_, ?_, ?_⟩
  · exact (c8_listings_spec.1 sampleDB "missing").1 (by decide)
  · exact (c8_listings_spec.1 sampleDB "app-test").2
      [("metadata_tester", [("0.1", .obj [("description", .str "testing ebuild")])])]
      (by decide)
  · exact (c8_listings_spec.2.1 sampleDB "missing" "p").1 (by decide)
  · exact (c8_listings_spec.2.1 sampleDB "app-test" "nope").2.1
      [("metadata_tester", [("0.1", .obj [("description", .str "testing ebuild")])])]
      (by decide) (by decide)
  · exact (c8_listings_spec.2.1 sampleDB "app-test" "metadata_tester").2.2
      [("metadata_tester", [("0.1", .obj [("description", .str "testing ebuild")])])]
      [("0.1", .obj [("description", .str "testing ebuild")])]
      (by decide) (by decide)
  · exact c8_listings_spec.2.2.1 sampleDB
  · exact c8_listings_spec.2.2.2 sampleDB

/-! ### Claim C6 -/

/-- C6: `FileJSON.read` on an absent file creates it (parent directories
    implicitly, in the path-map model) holding one empty-string entry per
    required key and returns that default record; on an existing file it
    raises the schema error (`KeyError`) exactly when some required key is
    absent from the deserialized content — extra keys play no role — and
    in that case the file is left as it was, never replaced by the
    default. -/
theorem c6_fileJsonRead_spec :
    (∀ (fs : FS) (path : String) (keys : List String),
        alookup fs path = none →
        fileJsonRead fs path keys =
          (.ok (JSON.obj (keys.map fun k => (k, JSON.str ""))),
           ainsert fs path (JSON.obj (keys.map fun k => (k, JSON.str "")))))
  ∧ (∀ (fs : FS) (path : String) (keys : List String) (content : JSON),
        alookup fs path = some content →
        (fileJsonRead fs path keys = (.error Err.keyError, fs) ↔
          ∃ k ∈ keys, jsonHasKey content k = false)
      ∧ (fileJsonRead fs path keys = (.ok content, fs) ↔
          ∀ k ∈ keys, jsonHasKey content k = true)) := by
  constructor
  · intro fs path keys h
    simp [fileJsonRead, h]
  · intro fs path keys content h
    by_cases hall : ∀ k ∈ keys, jsonHasKey content k = true
    · have hb : keys.all (fun k => jsonHasKey content k) = true :=
        List.all_eq_true.2 hall
      constructor
      · simp only [fileJsonRead, h, hb, if_pos]
        constructor
        · intro he; cases he
        · rintro ⟨k, hk, hf⟩
          rw [hall k hk] at hf
          cases hf
      · constructor
        · intro _; exact hall
        · intro _; simp [fileJsonRead, h, hb]
    · have hb : keys.all (fun k => jsonHasKey content k) = false := by
        rw [← Bool.not_eq_true, List.all_eq_true]
        exact fun hc => hall (fun k hk => hc k hk)
      constructor
      · simp only [fileJsonRead, h, hb, Bool.false_eq_true, if_neg]
        constructor
        · intro _
          push_neg at hall
          obtain ⟨k, hk, hf⟩ := hall
          exact ⟨k, hk, by simpa using hf⟩
        · intro _; rfl
      · simp only [fileJsonRead, h, hb, Bool.false_eq_true, if_neg]
        constructor
        · intro he; cases he
        · intro hc; exact absurd hc hall

/-- Witness for C6: creating a missing `uri.json` with its two required
    keys; rejecting a stale file missing `db_uri`; accepting a file with an
    extra key. -/
theorem c6_fileJsonRead_spec_witness :
    fileJsonRead [] "uri.json" ["repo_uri", "db_uri"] =
      (.ok (.obj [("repo_uri", .str ""), ("db_uri", .str "")]),
       [("uri.json", .obj [("repo_uri", .str ""), ("db_uri", .str "")])])
  ∧ fileJsonRead [("uri.json", .obj [("repo_uri", .str "a")])] "uri.json"
      ["repo_uri", "db_uri"] =
      (.error Err.keyError, [("uri.json", .obj [("repo_uri", .str "a")])])
  ∧ fileJsonRead
      [("uri.json", .obj [("repo_uri", .str "a"), ("db_uri", .str "b"),
        ("extra", .str "x")])] "uri.json" ["repo_uri", "db_uri"] =
      (.ok (.obj [("repo_uri", .str "a"), ("db_uri", .str "b"),
        ("extra", .str "x")]),
       [("uri.json", .obj [("repo_uri", .str "a"), ("db_uri", .str "b"),
        ("extra", .str "x")])]) := by
  refine ⟨?_, ?_, ?_⟩
  · exact c6_fileJsonRead_spec.1 [] "uri.json" ["repo_uri", "db_uri"] rfl
  · exact (c6_fileJsonRead_spec.2 [("uri.json", .obj [("repo_uri", .str "a")])]
      "uri.json" ["repo_uri", "db_uri"] (.obj [("repo_uri", .str "a")])
      (by decide)).1.mpr ⟨"db_uri", by decide, by decide⟩
  · exact (c6_fileJsonRead_spec.2
      [("uri.json", .obj [("repo_uri", .str "a"), ("db_uri", .str "b"),
        ("extra", .str "x")])]
      "uri.json" ["repo_uri", "db_uri"]
      (.obj [("repo_uri", .str "a"), ("db_uri", .str "b"), ("extra", .str "x")])
      (by decide)).2.mpr (by decide)

/-! ### Claim C2 -/

/-- C2 (contradicting the claim): `write()` on a tree where
    `add_category("c")` was called and no package was ever added under
    `"c"` does not raise.  The "Empty category" check in `write` fires only
    for a category missing from `self.db['packages']`, and `add_category`
    always creates the (empty) packages entry, so `write` succeeds and
    serializes the tree, leaving an empty listing in `c/packages.json`. -/
theorem c2_write_empty_category_succeeds :
    (writeDB (addCategory emptyPkgDB "c" (.obj [])) (skeletonFS "" "")).1 =
      .ok ()
  ∧ alookup (writeDB (addCategory emptyPkgDB "c" (.obj []))
      (skeletonFS "" "")).2 "c/packages.json" = some (.arr []) := by
  constructor
  · rfl
  · rfl

/-! ### String-path lemmas: `os.path.join`-built relative paths cannot
    collide when the joined names contain no separator. -/

theorem sappend_assoc (a b c : String) : a ++ b ++ c = a ++ (b ++ c) := by
  rw [String.ext_iff]
  simp [String.data_append, List.append_assoc]

theorem sappend_right_cancel {a b c : String} (h : a ++ c = b ++ c) :
    a = b := by
  rw [String.ext_iff] at h ⊢
  simp only [String.data_append] at h
  exact List.append_cancel_right h

theorem sappend_left_cancel {a b c : String} (h : a ++ b = a ++ c) :
    b = c := by
  rw [String.ext_iff] at h ⊢
  simp only [String.data_append] at h
  exact List.append_cancel_left h

theorem noSlash_not_mem {s : String} (h : noSlash s = true) :
    '/' ∉ s.data := by
  intro hm
  rw [noSlash, List.all_eq_true] at h
  have h2 := h '/' hm
  simp at h2

theorem slash_split (a : List Char) : ∀ (b x y : List Char),
    '/' ∉ a → '/' ∉ b → a ++ '/' :: x = b ++ '/' :: y → a = b ∧ x = y := by
  induction a with
  | nil =>
    intro b x y _ hb h
    cases b with
    | nil =>
      simp only [List.nil_append] at h
      injection h with h1 h2
      exact ⟨rfl, h2⟩
    | cons c b2 =>
      simp only [List.nil_append, List.cons_append] at h
      injection h with h1 h2
      exact absurd (h1 ▸ List.mem_cons_self c b2) hb
  | cons c a2 ih =>
    intro b x y ha hb h
    cases b with
    | nil =>
      simp only [List.cons_append, List.nil_append] at h
      injection h with h1 h2
      exact absurd (h1.symm ▸ List.mem_cons_self c a2) ha
    | cons c2 b2 =>
      simp only [List.cons_append] at h
      injection h with h1 h2
      subst h1
      obtain ⟨hab, hxy⟩ := ih b2 x y
        (fun hm => ha (List.mem_cons_of_mem _ hm))
        (fun hm => hb (List.mem_cons_of_mem _ hm)) h2
      exact ⟨by rw [hab], hxy⟩

theorem data_concat_slash (a x : String) :
    (a ++ "/" ++ x).data = a.data ++ '/' :: x.data := by
  simp [String.data_append]

theorem string_slash_split {a b x y : String} (ha : noSlash a = true)
    (hb : noSlash b = true) (h : a ++ "/" ++ x = b ++ "/" ++ y) :
    a = b ∧ x = y := by
  rw [String.ext_iff, data_concat_slash, data_concat_slash] at h
  obtain ⟨h1, h2⟩ := slash_split a.data b.data x.data y.data
    (noSlash_not_mem ha) (noSlash_not_mem hb) h
  exact ⟨String.ext h1, String.ext h2⟩

theorem slash_mem_concat (a x : String) : '/' ∈ (a ++ "/" ++ x).data := by
  rw [data_concat_slash]
  exact List.mem_append.2 (Or.inr (List.mem_cons_self _ _))

theorem noSlash_ne_concat {s : String} (a x : String)
    (h : noSlash s = true) : s ≠ a ++ "/" ++ x := by
  intro he
  exact noSlash_not_mem h (he ▸ slash_mem_concat a x)

theorem isPrefixOf_concat (c x : String) :
    (c ++ "/").data.isPrefixOf (c ++ "/" ++ x).data = true := by
  rw [List.isPrefixOf_iff_prefix]
  rw [show (c ++ "/" ++ x).data = (c ++ "/").data ++ x.data by
    simp [String.data_append]]
  exact List.prefix_append _ _

theorem isPrefixOf_root (c : String) {s : String} (hs : noSlash s = true) :
    (c ++ "/").data.isPrefixOf s.data = false := by
  rw [Bool.eq_false_iff]
  intro h
  rw [List.isPrefixOf_iff_prefix] at h
  have hsub : '/' ∈ s.data := h.subset (by simp [String.data_append])
  exact noSlash_not_mem hs hsub

theorem isPrefixOf_other {c c2 : String} (x : String)
    (hc : noSlash c = true) (hc2 : noSlash c2 = true) (hne : c ≠ c2) :
    (c ++ "/").data.isPrefixOf (c2 ++ "/" ++ x).data = false := by
  rw [Bool.eq_false_iff]
  intro h
  rw [List.isPrefixOf_iff_prefix] at h
  obtain ⟨t, ht⟩ := h
  rw [data_concat_slash] at ht
  rw [show (c ++ "/").data = c.data ++ ['/'] by simp [String.data_append]] at ht
  rw [List.append_assoc] at ht
  obtain ⟨h1, _⟩ := slash_split c.data c2.data t x.data
    (noSlash_not_mem hc) (noSlash_not_mem hc2) (by simpa using ht)
  exact hne (String.ext h1)

/-! ### `write` characterization -/

theorem path_v_assoc (c n v s : String) :
    c ++ "/" ++ n ++ "/" ++ v ++ s = c ++ "/" ++ (n ++ "/" ++ v ++ s) := by
  rw [String.ext_iff]
  simp [String.data_append, List.append_assoc]

theorem path_n_assoc (c n s : String) :
    c ++ "/" ++ n ++ "/" ++ s = c ++ "/" ++ (n ++ "/" ++ s) := by
  rw [String.ext_iff]
  simp [String.data_append, List.append_assoc]

theorem writeVersionsLoop_eq (pkgDir : String) (vcs : AMap JSON) :
    ∀ fs, writeVersionsLoop fs pkgDir vcs =
      amerge fs (vcs.map (fun ve => (pkgDir ++ "/" ++ ve.1 ++ ".json", ve.2))) := by
  induction vcs with
  | nil => intro fs; rfl
  | cons e t ih =>
    intro fs
    obtain ⟨v, content⟩ := e
    simp only [writeVersionsLoop, List.map_cons]
    rw [ih]
    rfl

theorem writePackagesLoop_eq (category : String)
    (pkgs : List (String × AMap JSON)) :
    ∀ fs, writePackagesLoop fs category pkgs =
      amerge fs ((pkgs.map (packageFiles category)).flatten) := by
  induction pkgs with
  | nil => intro fs; rfl
  | cons ne t ih =>
    intro fs
    obtain ⟨name, versions⟩ := ne
    simp only [writePackagesLoop, packageFiles, List.map_cons,
      List.flatten_cons]
    rw [writeVersionsLoop_eq, ih, amerge_append, amerge_append]
    rfl

theorem writeCategoriesLoop_eq (db : PkgDB) (cats : List (String × JSON))
    (hall : ∀ ce ∈ cats, (alookup db.packages ce.1).isSome = true) :
    ∀ fs, writeCategoriesLoop db fs cats =
      (.ok (), amerge fs ((cats.map (fun ce =>
        categoryFiles ce.1 ((alookup db.packages ce.1).getD []))).flatten)) := by
  induction cats with
  | nil => intro fs; rfl
  | cons ce t ih =>
    intro fs
    obtain ⟨category, d⟩ := ce
    have h1 := hall (category, d) (List.mem_cons_self _ _)
    obtain ⟨pkgs, hpkgs⟩ := Option.isSome_iff_exists.1 h1
    simp only [writeCategoriesLoop, hpkgs, List.map_cons, List.flatten_cons]
    rw [writePackagesLoop_eq,
      ih (fun ce2 hm => hall ce2 (List.mem_cons_of_mem _ hm)),
      amerge_append]
    simp only [categoryFiles, hpkgs, Option.getD_some]
    rw [amerge_append]
    rfl

theorem writeDB_eq (db : PkgDB)
    (hall : ∀ ce ∈ db.categories, (alookup db.packages ce.1).isSome = true)
    (fs : FS) :
    writeDB db fs = (.ok (), amerge fs (flatWrites db)) := by
  simp only [writeDB, flatWrites, treeFiles]
  rw [writeCategoriesLoop_eq db db.categories hall, amerge_append]
  rfl

theorem akeys_packageFiles (c : String) (ne : String × AMap JSON) :
    akeys (packageFiles c ne) =
      (packageRelPaths ne).map (fun r => c ++ "/" ++ r) := by
  simp only [packageFiles, packageRelPaths, akeys, List.map_append,
    List.map_map, List.map_cons, List.map_nil]
  congr 1
  · apply List.map_congr_left
    intro ve _
    simp only [Function.comp]
    exact path_v_assoc c ne.1 ve.1 ".json"
  · simp only [List.cons.injEq, and_true]
    exact path_n_assoc c ne.1 "versions.json"

theorem mem_packageRelPaths {p : String} {ne : String × AMap JSON}
    (h : p ∈ packageRelPaths ne) : ∃ x, p = ne.1 ++ "/" ++ x := by
  rw [packageRelPaths] at h
  rcases List.mem_append.1 h with h | h
  · obtain ⟨ve, _, rfl⟩ := List.mem_map.1 h
    exact ⟨ve.1 ++ ".json", sappend_assoc (ne.1 ++ "/") ve.1 ".json"⟩
  · rw [List.mem_singleton] at h
    exact ⟨"versions.json", h⟩

theorem version_path_inj {n v1 v2 s : String}
    (h : n ++ "/" ++ v1 ++ s = n ++ "/" ++ v2 ++ s) : v1 = v2 :=
  sappend_left_cancel (sappend_right_cancel h)

theorem nodup_packageRelPaths (ne : String × AMap JSON)
    (hndv : (akeys ne.2).Nodup)
    (hv : ∀ ve ∈ ne.2, ve.1 ≠ "versions") :
    (packageRelPaths ne).Nodup := by
  rw [packageRelPaths, List.nodup_append]
  refine ⟨?_, List.nodup_singleton _, ?_⟩
  · have hmap : ne.2.map (fun ve => ne.1 ++ "/" ++ ve.1 ++ ".json") =
        (akeys ne.2).map (fun v => ne.1 ++ "/" ++ v ++ ".json") := by
      simp [akeys, List.map_map]
    rw [hmap, List.nodup_map_iff_inj_on hndv]
    intro x _ y _ hxy
    exact version_path_inj hxy
  · intro p hp hq
    rw [List.mem_singleton] at hq
    obtain ⟨ve, hve, rfl⟩ := List.mem_map.1 hp
    have hlit : ("versions" ++ ".json" : String) = "versions.json" := by decide
    rw [← hlit, ← sappend_assoc] at hq
    exact hv ve hve (version_path_inj hq)

theorem alookup_mem {α : Type} (l : AMap α) (k : String) (v : α)
    (h : alookup l k = some v) : (k, v) ∈ l := by
  induction l with
  | nil => cases h
  | cons e t ih =>
    obtain ⟨k2, v2⟩ := e
    by_cases he : k2 = k
    · subst he
      simp [alookup] at h
      subst h
      exact List.mem_cons_self _ _
    · simp [alookup, he] at h
      exact List.mem_cons_of_mem _ (ih h)

theorem mem_categoryRelPaths_shape {p : String} {pkgs : AMap (AMap JSON)}
    (h : p ∈ categoryRelPaths pkgs) :
    p = "packages.json" ∨ ∃ ne ∈ pkgs, ∃ x, p = ne.1 ++ "/" ++ x := by
  rw [categoryRelPaths] at h
  rcases List.mem_append.1 h with h | h
  · obtain ⟨l, hl, hp⟩ := List.mem_flatten.1 h
    obtain ⟨ne, hne, rfl⟩ := List.mem_map.1 hl
    obtain ⟨x, hx⟩ := mem_packageRelPaths hp
    exact Or.inr ⟨ne, hne, x, hx⟩
  · rw [List.mem_singleton] at h
    exact Or.inl h

theorem nodup_categoryRelPaths (pkgs : AMap (AMap JSON))
    (hndp : (akeys pkgs).Nodup)
    (hn : ∀ ne ∈ pkgs, noSlash ne.1 = true)
    (hv : ∀ ne ∈ pkgs, (akeys ne.2).Nodup ∧ ∀ ve ∈ ne.2, ve.1 ≠ "versions") :
    (categoryRelPaths pkgs).Nodup := by
  rw [categoryRelPaths, List.nodup_append]
  refine ⟨?_, List.nodup_singleton _, ?_⟩
  · rw [List.nodup_flatten]
    constructor
    · intro l hl
      obtain ⟨ne, hne, rfl⟩ := List.mem_map.1 hl
      exact nodup_packageRelPaths ne (hv ne hne).1 (hv ne hne).2
    · rw [List.pairwise_map]
      have hpw : pkgs.Pairwise (fun a b => a.1 ≠ b.1) :=
        List.pairwise_map.1 hndp
      apply List.Pairwise.imp_of_mem ?_ hpw
      intro a b ha hb hne12
      intro p hp1 hp2
      obtain ⟨x, hx⟩ := mem_packageRelPaths hp1
      obtain ⟨y, hy⟩ := mem_packageRelPaths hp2
      obtain ⟨he, _⟩ := string_slash_split (hn a ha) (hn b hb)
        (hx.symm.trans hy)
      exact hne12 he
  · intro p hp hq
    rw [List.mem_singleton] at hq
    subst hq
    obtain ⟨l, hl, hpl⟩ := List.mem_flatten.1 hp
    obtain ⟨ne, hne, rfl⟩ := List.mem_map.1 hl
    obtain ⟨x, hx⟩ := mem_packageRelPaths hpl
    exact noSlash_ne_concat ne.1 x (by decide) hx

theorem akeys_append {α : Type} (a b : AMap α) :
    akeys (a ++ b) = akeys a ++ akeys b := by
  simp [akeys]

theorem akeys_flatten_map {α β : Type} (l : List β) (f : β → AMap α) :
    akeys ((l.map f).flatten) = (l.map (fun x => akeys (f x))).flatten := by
  simp only [akeys, List.map_flatten, List.map_map]
  rfl

theorem akeys_categoryFiles (c : String) (pkgs : AMap (AMap JSON)) :
    akeys (categoryFiles c pkgs) =
      (categoryRelPaths pkgs).map (fun r => c ++ "/" ++ r) := by
  rw [categoryFiles, categoryRelPaths, akeys_append, akeys_flatten_map,
    List.map_append, List.map_flatten, List.map_map]
  congr 1
  congr 1
  apply List.map_congr_left
  intro ne _
  exact akeys_packageFiles c ne

theorem akeys_treeFiles (db : PkgDB) :
    akeys (treeFiles db) = (db.categories.map (fun ce =>
      (categoryRelPaths ((alookup db.packages ce.1).getD [])).map
        (fun r => ce.1 ++ "/" ++ r))).flatten := by
  rw [treeFiles, akeys_flatten_map]
  congr 1
  apply List.map_congr_left
  intro ce _
  exact akeys_categoryFiles ce.1 ((alookup db.packages ce.1).getD [])

theorem mem_treeFiles_keys_shape {db : PkgDB} {p : String}
    (h : p ∈ akeys (treeFiles db)) :
    ∃ ce ∈ db.categories, ∃ r, p = ce.1 ++ "/" ++ r := by
  rw [akeys_treeFiles] at h
  obtain ⟨l, hl, hp⟩ := List.mem_flatten.1 h
  obtain ⟨ce, hce, rfl⟩ := List.mem_map.1 hl
  obtain ⟨r, _, rfl⟩ := List.mem_map.1 hp
  exact ⟨ce, hce, r, rfl⟩

theorem alookup_isSome_of_mem_keys {α : Type} (l : AMap α) (k : String)
    (h : k ∈ akeys l) : (alookup l k).isSome = true := by
  cases hc : alookup l k with
  | none => exact absurd h ((alookup_eq_none l k).1 hc)
  | some v => rfl

theorem root_not_mem_treeFiles {db : PkgDB} {s : String}
    (hs : noSlash s = true) : s ∉ akeys (treeFiles db) := by
  intro h
  obtain ⟨ce, _, r, hr⟩ := mem_treeFiles_keys_shape h
  exact noSlash_ne_concat ce.1 r hs hr

theorem nodup_treeFiles_keys (db : PkgDB) (hs : SaneTree db) :
    (akeys (treeFiles db)).Nodup := by
  obtain ⟨hk, hndc, hcn, hpk⟩ := hs
  rw [akeys_treeFiles, List.nodup_flatten]
  constructor
  · intro l hl
    obtain ⟨ce, hce, rfl⟩ := List.mem_map.1 hl
    have hmemk : ce.1 ∈ akeys db.packages := by
      rw [← hk]
      exact List.mem_map.2 ⟨ce, hce, rfl⟩
    obtain ⟨pkgs, hpkgs⟩ :=
      Option.isSome_iff_exists.1 (alookup_isSome_of_mem_keys _ _ hmemk)
    rw [hpkgs]
    simp only [Option.getD_some]
    have hfacts := hpk (ce.1, pkgs) (alookup_mem _ _ _ hpkgs)
    apply List.Nodup.map_on
    · intro x _ y _ hxy
      exact sappend_left_cancel hxy
    · exact nodup_categoryRelPaths pkgs hfacts.2.1
        (fun ne hne => (hfacts.2.2 ne hne).1)
        (fun ne hne => ⟨(hfacts.2.2 ne hne).2.2.1,
          fun ve hve => ((hfacts.2.2 ne hne).2.2.2 ve hve).2⟩)
  · rw [List.pairwise_map]
    have hpw : db.categories.Pairwise (fun a b => a.1 ≠ b.1) :=
      List.pairwise_map.1 hndc
    apply List.Pairwise.imp_of_mem ?_ hpw
    intro a b ha hb hne12 p hp1 hp2
    obtain ⟨r1, _, hr1⟩ := List.mem_map.1 hp1
    obtain ⟨r2, _, hr2⟩ := List.mem_map.1 hp2
    obtain ⟨he, _⟩ := string_slash_split (hcn a ha) (hcn b hb)
      (hr1.trans hr2.symm)
    exact hne12 he

theorem nodup_flatWrites_keys (db : PkgDB) (hs : SaneTree db) :
    (akeys (flatWrites db)).Nodup := by
  rw [flatWrites]
  rw [show akeys ([("info.json", db.info),
      ("categories.json", JSON.obj db.categories)] ++ treeFiles db) =
      "info.json" :: "categories.json" :: akeys (treeFiles db) by
    simp [akeys]]
  rw [List.nodup_cons, List.nodup_cons]
  refine ⟨?_, root_not_mem_treeFiles (by decide), nodup_treeFiles_keys db hs⟩
  rw [List.mem_cons]
  rintro (h | h)
  · exact absurd h (by decide)
  · exact root_not_mem_treeFiles (by decide) h

theorem akeys_flatWrites (db : PkgDB) :
    akeys (flatWrites db) =
      "info.json" :: "categories.json" :: akeys (treeFiles db) := by
  simp [flatWrites, akeys]

theorem sane_hall (db : PkgDB) (hs : SaneTree db) :
    ∀ ce ∈ db.categories, (alookup db.packages ce.1).isSome = true := by
  obtain ⟨hk, _, _, _⟩ := hs
  intro ce hce
  apply alookup_isSome_of_mem_keys
  rw [← hk]
  exact List.mem_map.2 ⟨ce, hce, rfl⟩

theorem writeDB_skeleton (db : PkgDB) (r d : String) (hs : SaneTree db) :
    writeDB db (skeletonFS r d) = (.ok (), skeletonFS r d ++ flatWrites db) := by
  rw [writeDB_eq db (sane_hall db hs)]
  rw [amerge_of_fresh (flatWrites db) (skeletonFS r d)
    (nodup_flatWrites_keys db hs) ?_]
  intro k hk2 hkd
  rw [akeys_flatWrites] at hk2
  rw [show akeys (skeletonFS r d) = ["uri.json"] from rfl,
    List.mem_singleton] at hkd
  subst hkd
  rcases List.mem_cons.1 hk2 with h | hk2
  · exact absurd h (by decide)
  rcases List.mem_cons.1 hk2 with h | hk2
  · exact absurd h (by decide)
  · exact root_not_mem_treeFiles (by decide) hk2

theorem alookup_cons_ne {α : Type} {k q : String} (v : α) (t : AMap α)
    (h : k ≠ q) : alookup ((k, v) :: t) q = alookup t q := by
  simp [alookup, h]

theorem alookup_cons_self {α : Type} (k : String) (v : α) (t : AMap α) :
    alookup ((k, v) :: t) k = some v := by
  simp [alookup]

theorem alookup_append_left {α : Type} {l : AMap α} (m : AMap α)
    {q : String} {v : α} (h : alookup l q = some v) :
    alookup (l ++ m) q = some v := by
  rw [alookup_append, h]

theorem alookup_append_right {α : Type} {l : AMap α} (m : AMap α)
    {q : String} (h : alookup l q = none) :
    alookup (l ++ m) q = alookup m q := by
  rw [alookup_append, h]

/-- The directory after `clean` + `write` as an explicit cons-list. -/
theorem fs1_cons (db : PkgDB) (r d : String) :
    skeletonFS r d ++ flatWrites db =
      ("uri.json", JSON.obj [("repo_uri", .str r), ("db_uri", .str d)]) ::
      ("info.json", db.info) ::
      ("categories.json", JSON.obj db.categories) :: treeFiles db := rfl

theorem fs1_lookup_uri (db : PkgDB) (r d : String) :
    alookup (skeletonFS r d ++ flatWrites db) "uri.json" =
      some (.obj [("repo_uri", .str r), ("db_uri", .str d)]) := by
  rw [fs1_cons]
  exact alookup_cons_self _ _ _

theorem fs1_lookup_info (db : PkgDB) (r d : String) :
    alookup (skeletonFS r d ++ flatWrites db) "info.json" = some db.info := by
  rw [fs1_cons, alookup_cons_ne _ _ (by decide)]
  exact alookup_cons_self _ _ _

theorem fs1_lookup_categories (db : PkgDB) (r d : String) :
    alookup (skeletonFS r d ++ flatWrites db) "categories.json" =
      some (.obj db.categories) := by
  rw [fs1_cons, alookup_cons_ne _ _ (by decide),
    alookup_cons_ne _ _ (by decide)]
  exact alookup_cons_self _ _ _

theorem fs1_lookup_tree (db : PkgDB) (r d : String) (hs : SaneTree db)
    {p : String} {c : JSON} (hmem : (p, c) ∈ treeFiles db) :
    alookup (skeletonFS r d ++ flatWrites db) p = some c := by
  obtain ⟨ce, _, rr, rfl⟩ := mem_treeFiles_keys_shape
    (List.mem_map.2 ⟨(p, c), hmem, rfl⟩)
  rw [fs1_cons,
    alookup_cons_ne _ _ (noSlash_ne_concat _ _ (by decide)),
    alookup_cons_ne _ _ (noSlash_ne_concat _ _ (by decide)),
    alookup_cons_ne _ _ (noSlash_ne_concat _ _ (by decide))]
  exact alookup_of_mem_nodup _ _ _ hmem (nodup_treeFiles_keys db hs)

theorem fs1_lookup_manifest_none (db : PkgDB) (r d : String) :
    alookup (skeletonFS r d ++ flatWrites db) "manifest.json" = none := by
  rw [fs1_cons, alookup_cons_ne _ _ (by decide),
    alookup_cons_ne _ _ (by decide), alookup_cons_ne _ _ (by decide)]
  rw [alookup_eq_none]
  exact root_not_mem_treeFiles (by decide)

theorem mem_treeFiles_packagesJson (db : PkgDB) {ce : String × JSON}
    (hce : ce ∈ db.categories) {pkgs : AMap (AMap JSON)}
    (hpkgs : alookup db.packages ce.1 = some pkgs) :
    (ce.1 ++ "/" ++ "packages.json",
      JSON.arr ((akeys pkgs).map .str)) ∈ treeFiles db := by
  rw [treeFiles, List.mem_flatten]
  refine ⟨categoryFiles ce.1 ((alookup db.packages ce.1).getD []),
    List.mem_map.2 ⟨ce, hce, rfl⟩, ?_⟩
  rw [hpkgs]
  simp only [Option.getD_some]
  rw [categoryFiles]
  exact List.mem_append.2 (Or.inr (List.mem_singleton.2 rfl))

theorem mem_treeFiles_versionsJson (db : PkgDB) {ce : String × JSON}
    (hce : ce ∈ db.categories) {pkgs : AMap (AMap JSON)}
    (hpkgs : alookup db.packages ce.1 = some pkgs)
    {ne : String × AMap JSON} (hne : ne ∈ pkgs) :
    (ce.1 ++ "/" ++ ne.1 ++ "/" ++ "versions.json",
      JSON.arr ((akeys ne.2).map .str)) ∈ treeFiles db := by
  rw [treeFiles, List.mem_flatten]
  refine ⟨categoryFiles ce.1 ((alookup db.packages ce.1).getD []),
    List.mem_map.2 ⟨ce, hce, rfl⟩, ?_⟩
  rw [hpkgs]
  simp only [Option.getD_some]
  rw [categoryFiles]
  apply List.mem_append.2
  apply Or.inl
  rw [List.mem_flatten]
  refine ⟨packageFiles ce.1 ne, List.mem_map.2 ⟨ne, hne, rfl⟩, ?_⟩
  rw [packageFiles]
  exact List.mem_append.2 (Or.inr (List.mem_singleton.2 rfl))

theorem mem_treeFiles_version (db : PkgDB) {ce : String × JSON}
    (hce : ce ∈ db.categories) {pkgs : AMap (AMap JSON)}
    (hpkgs : alookup db.packages ce.1 = some pkgs)
    {ne : String × AMap JSON} (hne : ne ∈ pkgs)
    {ve : String × JSON} (hve : ve ∈ ne.2) :
    (ce.1 ++ "/" ++ ne.1 ++ "/" ++ ve.1 ++ ".json", ve.2) ∈ treeFiles db := by
  rw [treeFiles, List.mem_flatten]
  refine ⟨categoryFiles ce.1 ((alookup db.packages ce.1).getD []),
    List.mem_map.2 ⟨ce, hce, rfl⟩, ?_⟩
  rw [hpkgs]
  simp only [Option.getD_some]
  rw [categoryFiles]
  apply List.mem_append.2
  apply Or.inl
  rw [List.mem_flatten]
  refine ⟨packageFiles ce.1 ne, List.mem_map.2 ⟨ne, hne, rfl⟩, ?_⟩
  rw [packageFiles]
  exact List.mem_append.2 (Or.inl (List.mem_map.2 ⟨ve, hve, rfl⟩))

theorem mem_categoryFiles_shape {c : String} {pkgs : AMap (AMap JSON)}
    {e : String × JSON} (he : e ∈ categoryFiles c pkgs) :
    ∃ r, e.1 = c ++ "/" ++ r := by
  have hmem : e.1 ∈ akeys (categoryFiles c pkgs) :=
    List.mem_map.2 ⟨e, he, rfl⟩
  rw [akeys_categoryFiles] at hmem
  obtain ⟨r, _, hr⟩ := List.mem_map.1 hmem
  exact ⟨r, hr.symm⟩

theorem filter_categoryFiles_self (c : String) (pkgs : AMap (AMap JSON)) :
    (categoryFiles c pkgs).filter
      (fun e => (c ++ "/").data.isPrefixOf e.1.data) =
      categoryFiles c pkgs := by
  rw [List.filter_eq_self]
  intro e he
  obtain ⟨r, hr⟩ := mem_categoryFiles_shape he
  rw [hr]
  exact isPrefixOf_concat c r

theorem filter_categoryFiles_other {c c2 : String} (pkgs : AMap (AMap JSON))
    (hc : noSlash c = true) (hc2 : noSlash c2 = true) (hne : c ≠ c2) :
    (categoryFiles c2 pkgs).filter
      (fun e => (c ++ "/").data.isPrefixOf e.1.data) = [] := by
  rw [List.filter_eq_nil_iff]
  intro e he
  obtain ⟨r, hr⟩ := mem_categoryFiles_shape he
  show ¬((c ++ "/").data.isPrefixOf e.1.data = true)
  rw [hr, isPrefixOf_other r hc hc2 hne]
  exact Bool.false_ne_true

/-- Filtering the written category blocks for one category keeps exactly
    that category's block. -/
theorem filter_catblocks (c : String) (hc : noSlash c = true)
    (F : String → AMap (AMap JSON)) :
    ∀ (cats : List (String × JSON)),
      (∀ ce ∈ cats, noSlash ce.1 = true) →
      (akeys cats).Nodup →
      ∀ dsc : JSON, (c, dsc) ∈ cats →
      ((cats.map (fun ce => categoryFiles ce.1 (F ce.1))).flatten).filter
        (fun e => (c ++ "/").data.isPrefixOf e.1.data) =
        categoryFiles c (F c) := by
  intro cats
  induction cats with
  | nil => intro _ _ _ hmem; cases hmem
  | cons ce t ih =>
    intro hns hnd dsc hmem
    have hcons : akeys (ce :: t) = ce.1 :: akeys t := rfl
    rw [hcons, List.nodup_cons] at hnd
    simp only [List.map_cons, List.flatten_cons, List.filter_append]
    rcases List.mem_cons.1 hmem with heq | hmem2
    · have hce1 : ce.1 = c := by rw [← heq]
      subst hce1
      rw [filter_categoryFiles_self]
      rw [show ((t.map (fun ce2 => categoryFiles ce2.1 (F ce2.1))).flatten).filter
          (fun e => (ce.1 ++ "/").data.isPrefixOf e.1.data) = [] from ?_]
      · rw [List.append_nil]
      · rw [List.filter_eq_nil_iff]
        intro e he
        obtain ⟨l, hl, hel⟩ := List.mem_flatten.1 he
        obtain ⟨ce2, hce2, rfl⟩ := List.mem_map.1 hl
        obtain ⟨r, hr⟩ := mem_categoryFiles_shape hel
        have hne : ce.1 ≠ ce2.1 := by
          rintro heq2
          exact hnd.1 (heq2 ▸ List.mem_map.2 ⟨ce2, hce2, rfl⟩)
        show ¬((ce.1 ++ "/").data.isPrefixOf e.1.data = true)
        rw [hr, isPrefixOf_other r hc
          (hns ce2 (List.mem_cons_of_mem _ hce2)) hne]
        exact Bool.false_ne_true
    · have hne : c ≠ ce.1 := by
        intro heqc
        rw [heqc] at hmem2
        exact hnd.1 (List.mem_map.2 ⟨(ce.1, dsc), hmem2, rfl⟩)
      rw [filter_categoryFiles_other (F ce.1) hc
        (hns ce (List.mem_cons_self _ _)) hne]
      rw [List.nil_append]
      exact ih (fun ce2 h2 => hns ce2 (List.mem_cons_of_mem _ h2)) hnd.2
        dsc hmem2

/-- `os.walk` over one category of a freshly written tree: exactly that
    category's files. -/
theorem fsUnder_fs1 (db : PkgDB) (r d : String) (hs : SaneTree db)
    {ce : String × JSON} (hce : ce ∈ db.categories) :
    fsUnder (skeletonFS r d ++ flatWrites db) ce.1 =
      categoryFiles ce.1 ((alookup db.packages ce.1).getD []) := by
  obtain ⟨hk, hndc, hcn, hpk⟩ := hs
  rw [fs1_cons, fsUnder]
  rw [show (("uri.json", JSON.obj [("repo_uri", .str r), ("db_uri", .str d)]) ::
      ("info.json", db.info) ::
      ("categories.json", JSON.obj db.categories) :: treeFiles db).filter
        (fun e => (ce.1 ++ "/").data.isPrefixOf e.1.data) =
      (treeFiles db).filter
        (fun e => (ce.1 ++ "/").data.isPrefixOf e.1.data) from ?_]
  · rw [treeFiles]
    exact filter_catblocks ce.1 (hcn ce hce)
      (fun c2 => (alookup db.packages c2).getD []) db.categories hcn hndc
      ce.2 (by simpa using hce)
  · have hu : ¬((ce.1 ++ "/").data.isPrefixOf
        ("uri.json" : String).data = true) := by
      rw [isPrefixOf_root ce.1 (show noSlash "uri.json" = true by decide)]
      exact Bool.false_ne_true
    have hi : ¬((ce.1 ++ "/").data.isPrefixOf
        ("info.json" : String).data = true) := by
      rw [isPrefixOf_root ce.1 (show noSlash "info.json" = true by decide)]
      exact Bool.false_ne_true
    have hcj : ¬((ce.1 ++ "/").data.isPrefixOf
        ("categories.json" : String).data = true) := by
      rw [isPrefixOf_root ce.1
        (show noSlash "categories.json" = true by decide)]
      exact Bool.false_ne_true
    simp only [List.filter_cons]
    rw [if_neg hu, if_neg hi, if_neg hcj]

theorem foldl_ainsert_map {α β : Type} (g : β → String) (h : β → α) :
    ∀ (files : List β) (acc : AMap α),
      files.foldl (fun acc e => ainsert acc (g e) (h e)) acc =
        amerge acc (files.map (fun e => (g e, h e))) := by
  intro files
  induction files with
  | nil => intro acc; rfl
  | cons e t ih =>
    intro acc
    simp only [List.foldl_cons, List.map_cons]
    rw [ih]
    rfl

theorem categoryFiles_ne_nil (c : String) (pkgs : AMap (AMap JSON)) :
    categoryFiles c pkgs ≠ [] := by
  rw [categoryFiles]
  intro h
  obtain ⟨-, h2⟩ := List.append_eq_nil.1 h
  cases h2

theorem manifestEntriesLoop_eq (fs : FS) (F : String → FS)
    (cats : List (String × JSON))
    (hblocks : ∀ ce ∈ cats, fsUnder fs ce.1 = F ce.1 ∧ F ce.1 ≠ []) :
    ∀ acc, manifestEntriesLoop fs cats acc =
      .ok (amerge acc ((cats.map (fun ce =>
        (F ce.1).map (fun e => (e.1, JSON.str (hashJ e.2))))).flatten)) := by
  induction cats with
  | nil => intro acc; rfl
  | cons ce t ih =>
    intro acc
    obtain ⟨hF, hne⟩ := hblocks ce (List.mem_cons_self _ _)
    have hemp : (F ce.1).isEmpty = false := by
      cases hF2 : F ce.1 with
      | nil => exact absurd hF2 hne
      | cons a b => rfl
    simp only [manifestEntriesLoop, hF, hemp, Bool.false_eq_true, if_false,
      List.map_cons, List.flatten_cons]
    rw [foldl_ainsert_map (fun (e : String × JSON) => e.1)
      (fun e => JSON.str (hashJ e.2)) (F ce.1) acc]
    rw [ih (fun ce2 h2 => hblocks ce2 (List.mem_cons_of_mem _ h2))]
    rw [amerge_append]

theorem manifestFixedLoop_fs1 (db : PkgDB) (r d : String) :
    manifestFixedLoop (skeletonFS r d ++ flatWrites db) fixedNames [] =
      .ok [("info.json", JSON.str (hashJ db.info)),
           ("categories.json", JSON.str (hashJ (.obj db.categories))),
           ("uri.json", JSON.str (hashJ (.obj [("repo_uri", .str r),
             ("db_uri", .str d)])))] := by
  simp only [fixedNames, manifestFixedLoop, hashFile, fs1_lookup_info,
    fs1_lookup_categories, fs1_lookup_uri]
  rfl

theorem akeys_map_hash (l : FS) :
    akeys (l.map (fun e => (e.1, JSON.str (hashJ e.2)))) = akeys l := by
  simp only [akeys, List.map_map]
  rfl

theorem flatten_hash_blocks (db : PkgDB) :
    ((db.categories.map (fun ce =>
      (categoryFiles ce.1 ((alookup db.packages ce.1).getD [])).map
        (fun e => (e.1, JSON.str (hashJ e.2))))).flatten) =
    (treeFiles db).map (fun e => (e.1, JSON.str (hashJ e.2))) := by
  rw [treeFiles, List.map_flatten, List.map_map]
  rfl

theorem manifestDB_fs1 (db : PkgDB) (r d : String) (hs : SaneTree db) :
    manifestDB (skeletonFS r d ++ flatWrites db) =
      (.ok (), (skeletonFS r d ++ flatWrites db) ++
        [("manifest.json", JSON.obj (manifestOf db r d))]) := by
  have hcatsread : fileJsonRead (skeletonFS r d ++ flatWrites db)
      "categories.json" [] =
      (.ok (.obj db.categories), skeletonFS r d ++ flatWrites db) := by
    simp only [fileJsonRead, fs1_lookup_categories]
    rfl
  have hE : manifestEntriesLoop (skeletonFS r d ++ flatWrites db)
      db.categories
      [("info.json", JSON.str (hashJ db.info)),
       ("categories.json", JSON.str (hashJ (.obj db.categories))),
       ("uri.json", JSON.str (hashJ (.obj [("repo_uri", .str r),
         ("db_uri", .str d)])))] = .ok (manifestOf db r d) := by
    rw [manifestEntriesLoop_eq (skeletonFS r d ++ flatWrites db)
      (fun c2 => categoryFiles c2 ((alookup db.packages c2).getD []))
      db.categories
      (fun ce hce => ⟨fsUnder_fs1 db r d hs hce, categoryFiles_ne_nil _ _⟩)]
    rw [flatten_hash_blocks]
    rw [amerge_of_fresh]
    · rfl
    · rw [akeys_map_hash]
      exact nodup_treeFiles_keys db hs
    · rw [akeys_map_hash]
      intro k hk2 hmem
      obtain ⟨ce, _, rr, rfl⟩ := mem_treeFiles_keys_shape hk2
      rw [show akeys [("info.json", JSON.str (hashJ db.info)),
          ("categories.json", JSON.str (hashJ (.obj db.categories))),
          ("uri.json", JSON.str (hashJ (.obj [("repo_uri", JSON.str r),
            ("db_uri", JSON.str d)])))] =
          ["info.json", "categories.json", "uri.json"] from rfl] at hmem
      rcases List.mem_cons.1 hmem with h | hmem
      · exact noSlash_ne_concat ce.1 rr (by decide) h.symm
      rcases List.mem_cons.1 hmem with h | hmem
      · exact noSlash_ne_concat ce.1 rr (by decide) h.symm
      rcases List.mem_cons.1 hmem with h | hmem
      · exact noSlash_ne_concat ce.1 rr (by decide) h.symm
      · cases hmem
  simp only [manifestDB, hcatsread, manifestFixedLoop_fs1, hE]
  rw [ainsert_of_not_mem]
  rw [← alookup_eq_none]
  exact fs1_lookup_manifest_none db r d

theorem contains_of_mem {l : List String} {a : String} (h : a ∈ l) :
    l.contains a = true := List.elem_eq_true_of_mem h

theorem mem_of_contains {l : List String} {a : String}
    (h : l.contains a = true) : a ∈ l := List.elem_iff.1 h

theorem checkEntries_all_match (fs : FS) :
    ∀ (entries : List (String × JSON)),
      (∀ e ∈ entries, ∃ cq, alookup fs e.1 = some cq ∧
        e.2 = JSON.str (hashJ cq)) →
      checkEntries fs entries = .ok [] := by
  intro entries
  induction entries with
  | nil => intro _; rfl
  | cons e t ih =>
    intro hm
    obtain ⟨cq, hlk, hval⟩ := hm e (List.mem_cons_self _ _)
    obtain ⟨name, value⟩ := e
    simp only [checkEntries, hlk,
      ih (fun e2 h2 => hm e2 (List.mem_cons_of_mem _ h2))]
    rw [if_pos hval]

/-- The on-disk state after `clean` + `write()` + `manifest()`. -/
theorem writtenFS_eq (db : PkgDB) (r d : String) (hs : SaneTree db) :
    writtenFS db r d = (skeletonFS r d ++ flatWrites db) ++
      [("manifest.json", JSON.obj (manifestOf db r d))] := by
  rw [writtenFS, writeDB_skeleton db r d hs]
  rw [show ((Except.ok (), skeletonFS r d ++ flatWrites db) :
    (Except Err Unit) × FS).2 = skeletonFS r d ++ flatWrites db from rfl]
  rw [manifestDB_fs1 db r d hs]

theorem writtenFS_lookup_manifest (db : PkgDB) (r d : String)
    (hs : SaneTree db) :
    alookup (writtenFS db r d) "manifest.json" =
      some (.obj (manifestOf db r d)) := by
  rw [writtenFS_eq db r d hs,
    alookup_append_right _ (fs1_lookup_manifest_none db r d)]
  exact alookup_cons_self _ _ _

theorem manifestOf_entries_match (db : PkgDB) (r d : String)
    (hs : SaneTree db) :
    ∀ e ∈ manifestOf db r d, ∃ cq,
      alookup (writtenFS db r d) e.1 = some cq ∧
      e.2 = JSON.str (hashJ cq) := by
  intro e he
  rw [manifestOf] at he
  rw [writtenFS_eq db r d hs]
  rcases List.mem_append.1 he with h | h
  · rcases List.mem_cons.1 h with h | h
    · refine ⟨db.info, ?_, ?_⟩
      · rw [h]
        exact alookup_append_left _ (fs1_lookup_info db r d)
      · rw [h]
    rcases List.mem_cons.1 h with h | h
    · refine ⟨.obj db.categories, ?_, ?_⟩
      · rw [h]
        exact alookup_append_left _ (fs1_lookup_categories db r d)
      · rw [h]
    rcases List.mem_cons.1 h with h | h
    · refine ⟨.obj [("repo_uri", .str r), ("db_uri", .str d)], ?_, ?_⟩
      · rw [h]
        exact alookup_append_left _ (fs1_lookup_uri db r d)
      · rw [h]
    · cases h
  · obtain ⟨te, hte, rfl⟩ := List.mem_map.1 h
    exact ⟨te.2, alookup_append_left _ (fs1_lookup_tree db r d hs hte), rfl⟩

theorem akeys_manifestOf (db : PkgDB) (r d : String) :
    akeys (manifestOf db r d) =
      "info.json" :: "categories.json" :: "uri.json" ::
        akeys (treeFiles db) := by
  rw [manifestOf]
  rw [show akeys ([("info.json", JSON.str (hashJ db.info)),
      ("categories.json", JSON.str (hashJ (.obj db.categories))),
      ("uri.json", JSON.str (hashJ (.obj [("repo_uri", .str r),
        ("db_uri", .str d)])))] ++
      (treeFiles db).map (fun e => (e.1, JSON.str (hashJ e.2)))) =
      "info.json" :: "categories.json" :: "uri.json" ::
        akeys ((treeFiles db).map (fun e => (e.1, JSON.str (hashJ e.2))))
      from rfl]
  rw [akeys_map_hash]

theorem fixed_find_none (db : PkgDB) (r d : String) :
    fixedNames.find?
      (fun n => !((akeys (manifestOf db r d)).contains n)) = none := by
  rw [List.find?_eq_none]
  intro n hn
  have hmem : n ∈ akeys (manifestOf db r d) := by
    rw [akeys_manifestOf]
    rcases List.mem_cons.1 hn with h | hn
    · rw [h]; exact List.mem_cons_self _ _
    rcases List.mem_cons.1 hn with h | hn
    · rw [h]; exact List.mem_cons_of_mem _ (List.mem_cons_self _ _)
    rcases List.mem_cons.1 hn with h | hn
    · rw [h]
      exact List.mem_cons_of_mem _
        (List.mem_cons_of_mem _ (List.mem_cons_self _ _))
    · cases hn
  rw [show (akeys (manifestOf db r d)).contains n = true from
    contains_of_mem hmem]
  decide

/-- `check_manifest` on a freshly generated tree: all clear. -/
theorem checkManifest_writtenFS (db : PkgDB) (r d : String)
    (hs : SaneTree db) :
    checkManifest (writtenFS db r d) =
      (.ok (true, []), writtenFS db r d) := by
  have hm := writtenFS_lookup_manifest db r d hs
  have hread : fileJsonRead (writtenFS db r d) "manifest.json" [] =
      (.ok (.obj (manifestOf db r d)), writtenFS db r d) := by
    simp only [fileJsonRead, hm]
    rfl
  simp only [checkManifest, hread, fixed_find_none db r d,
    checkEntries_all_match (writtenFS db r d) (manifestOf db r d)
      (manifestOf_entries_match db r d hs)]
  rfl

theorem writtenFS_lookup_info (db : PkgDB) (r d : String) (hs : SaneTree db) :
    alookup (writtenFS db r d) "info.json" = some db.info := by
  rw [writtenFS_eq db r d hs]
  exact alookup_append_left _ (fs1_lookup_info db r d)

theorem writtenFS_lookup_categories (db : PkgDB) (r d : String)
    (hs : SaneTree db) :
    alookup (writtenFS db r d) "categories.json" =
      some (.obj db.categories) := by
  rw [writtenFS_eq db r d hs]
  exact alookup_append_left _ (fs1_lookup_categories db r d)

theorem writtenFS_lookup_tree (db : PkgDB) (r d : String) (hs : SaneTree db)
    {p : String} {c : JSON} (hmem : (p, c) ∈ treeFiles db) :
    alookup (writtenFS db r d) p = some c := by
  rw [writtenFS_eq db r d hs]
  exact alookup_append_left _ (fs1_lookup_tree db r d hs hmem)

theorem fsUnder_writtenFS (db : PkgDB) (r d : String) (hs : SaneTree db)
    {ce : String × JSON} (hce : ce ∈ db.categories) :
    fsUnder (writtenFS db r d) ce.1 =
      categoryFiles ce.1 ((alookup db.packages ce.1).getD []) := by
  rw [writtenFS_eq db r d hs, fsUnder, List.filter_append]
  have hm : ¬((ce.1 ++ "/").data.isPrefixOf
      ("manifest.json" : String).data = true) := by
    rw [isPrefixOf_root ce.1 (show noSlash "manifest.json" = true by decide)]
    exact Bool.false_ne_true
  rw [show List.filter (fun e => (ce.1 ++ "/").data.isPrefixOf e.1.data)
      [("manifest.json", JSON.obj (manifestOf db r d))] = [] from ?_]
  · rw [List.append_nil, ← fsUnder]
    exact fsUnder_fs1 db r d hs hce
  · simp only [List.filter_cons, List.filter_nil]
    rw [if_neg hm]

theorem strItems_map_str (l : List String) :
    strItems (l.map JSON.str) = some l := by
  induction l with
  | nil => rfl
  | cons x t ih => simp only [List.map_cons, strItems, ih]

theorem isEmpty_false_of_ne_nil {α : Type} {l : List α} (h : l ≠ []) :
    l.isEmpty = false := by
  cases l with
  | nil => exact absurd rfl h
  | cons a t => rfl

theorem akeys_isEmpty_false {α : Type} {m : AMap α} (h : m ≠ []) :
    (akeys m).isEmpty = false := by
  cases m with
  | nil => exact absurd rfl h
  | cons e t => rfl

theorem amerge_nil_left {α : Type} (m : AMap α)
    (hnd : (akeys m).Nodup) : amerge [] m = m := by
  rw [amerge_of_fresh m [] hnd (fun k _ hk => by cases hk)]
  rfl

theorem readVersionsLoop_eq (fs : FS) (pkgDir : String) (vs : AMap JSON)
    (hlk : ∀ ve ∈ vs,
      alookup fs (pkgDir ++ "/" ++ ve.1 ++ ".json") = some ve.2) :
    ∀ acc, readVersionsLoop fs pkgDir (akeys vs) acc =
      (.ok (amerge acc vs), fs) := by
  induction vs with
  | nil => intro acc; rfl
  | cons ve t ih =>
    intro acc
    have h1 := hlk ve (List.mem_cons_self _ _)
    have hread : fileJsonRead fs (pkgDir ++ "/" ++ ve.1 ++ ".json") [] =
        (.ok ve.2, fs) := by
      simp only [fileJsonRead, h1]
      rfl
    show readVersionsLoop fs pkgDir (ve.1 :: akeys t) acc = _
    simp only [readVersionsLoop, hread]
    exact ih (fun ve2 h2 => hlk ve2 (List.mem_cons_of_mem _ h2))
      (ainsert acc ve.1 ve.2)

theorem readPackagesLoop_eq (fs : FS) (c : String) (pkgs : AMap (AMap JSON))
    (hNE : (fsUnder fs c).isEmpty = false)
    (hfacts : ∀ ne ∈ pkgs,
      alookup fs (c ++ "/" ++ ne.1 ++ "/" ++ "versions.json") =
          some (.arr ((akeys ne.2).map .str)) ∧
      ne.2 ≠ [] ∧ (akeys ne.2).Nodup ∧
      ∀ ve ∈ ne.2,
        alookup fs (c ++ "/" ++ ne.1 ++ "/" ++ ve.1 ++ ".json") =
          some ve.2) :
    ∀ acc, readPackagesLoop fs c (akeys pkgs) acc =
      (.ok (amerge acc pkgs), fs) := by
  induction pkgs with
  | nil => intro acc; rfl
  | cons ne t ih =>
    intro acc
    obtain ⟨hvj, hne, hnd, hvs⟩ := hfacts ne (List.mem_cons_self _ _)
    have hread : fileJsonRead fs (c ++ "/" ++ ne.1 ++ "/" ++ "versions.json")
        [] = (.ok (.arr ((akeys ne.2).map .str)), fs) := by
      simp only [fileJsonRead, hvj]
      rfl
    show readPackagesLoop fs c (ne.1 :: akeys t) acc = _
    simp only [readPackagesLoop, hNE, Bool.false_eq_true, if_false, hread,
      asStrList, strItems_map_str, akeys_isEmpty_false hne]
    rw [readVersionsLoop_eq fs (c ++ "/" ++ ne.1) ne.2 hvs []]
    rw [amerge_nil_left ne.2 hnd]
    exact ih (fun ne2 h2 => hfacts ne2 (List.mem_cons_of_mem _ h2))
      (ainsert acc ne.1 ne.2)

theorem readCategoriesLoop_eq (fs : FS) (P : String → AMap (AMap JSON))
    (cats : List (String × JSON))
    (hfacts : ∀ ce ∈ cats,
      (fsUnder fs ce.1).isEmpty = false ∧
      alookup fs (ce.1 ++ "/" ++ "packages.json") =
          some (.arr ((akeys (P ce.1)).map .str)) ∧
      P ce.1 ≠ [] ∧ (akeys (P ce.1)).Nodup ∧
      ∀ ne ∈ P ce.1,
        alookup fs (ce.1 ++ "/" ++ ne.1 ++ "/" ++ "versions.json") =
            some (.arr ((akeys ne.2).map .str)) ∧
        ne.2 ≠ [] ∧ (akeys ne.2).Nodup ∧
        ∀ ve ∈ ne.2,
          alookup fs (ce.1 ++ "/" ++ ne.1 ++ "/" ++ ve.1 ++ ".json") =
            some ve.2) :
    ∀ acc, readCategoriesLoop fs cats acc =
      (.ok (amerge acc (cats.map (fun ce => (ce.1, P ce.1)))), fs) := by
  induction cats with
  | nil => intro acc; rfl
  | cons ce t ih =>
    intro acc
    obtain ⟨hdir, hpj, hne, hnd, hinner⟩ := hfacts ce (List.mem_cons_self _ _)
    have hread : fileJsonRead fs (ce.1 ++ "/" ++ "packages.json") [] =
        (.ok (.arr ((akeys (P ce.1)).map .str)), fs) := by
      simp only [fileJsonRead, hpj]
      rfl
    simp only [readCategoriesLoop, hdir, Bool.false_eq_true, if_false, hread,
      asStrList, strItems_map_str, akeys_isEmpty_false hne, List.map_cons]
    rw [readPackagesLoop_eq fs ce.1 (P ce.1) hdir hinner []]
    rw [amerge_nil_left (P ce.1) hnd]
    exact ih (fun ce2 h2 => hfacts ce2 (List.mem_cons_of_mem _ h2))
      (ainsert acc ce.1 (P ce.1))

/-- `read()` on a freshly generated tree reconstructs the tree exactly. -/
theorem readDB_writtenFS (db : PkgDB) (r d : String) (hs : SaneTree db) :
    readDB emptyPkgDB (writtenFS db r d) = (.ok db, writtenFS db r d) := by
  have hk := hs.1
  have hndc := hs.2.1
  have hpk := hs.2.2.2
  have hinfo : fileJsonRead (writtenFS db r d) "info.json" [] =
      (.ok db.info, writtenFS db r d) := by
    simp only [fileJsonRead, writtenFS_lookup_info db r d hs]
    rfl
  have hcats : fileJsonRead (writtenFS db r d) "categories.json" [] =
      (.ok (.obj db.categories), writtenFS db r d) := by
    simp only [fileJsonRead, writtenFS_lookup_categories db r d hs]
    rfl
  have hloop := readCategoriesLoop_eq (writtenFS db r d)
    (fun c2 => (alookup db.packages c2).getD []) db.categories ?_
    emptyPkgDB.packages
  · simp only [readDB, checkManifest_writtenFS db r d hs, Bool.not_true,
      Bool.false_eq_true, if_false, hinfo, hcats, hloop]
    have hpkgseq : amerge emptyPkgDB.packages (db.categories.map (fun ce =>
        (ce.1, (alookup db.packages ce.1).getD []))) = db.packages := by
      show amerge [] (db.categories.map (fun ce =>
        (ce.1, (alookup db.packages ce.1).getD []))) = db.packages
      rw [amerge_nil_left]
      · rw [show db.categories.map (fun ce =>
            (ce.1, (alookup db.packages ce.1).getD [])) =
            (akeys db.categories).map (fun k =>
              (k, (alookup db.packages k).getD [])) by
          rw [akeys, List.map_map]
          rfl]
        rw [hk]
        exact rebuild_eq_self db.packages [] (hk ▸ hndc)
      · rw [show akeys (db.categories.map (fun ce =>
            (ce.1, (alookup db.packages ce.1).getD []))) =
            akeys db.categories by
          rw [akeys, akeys, List.map_map]
          rfl]
        exact hndc
    rw [hpkgseq]
  · intro ce hce
    have hsome := sane_hall db hs ce hce
    obtain ⟨pkgs, hpkgs⟩ := Option.isSome_iff_exists.1 hsome
    have hgetd : (alookup db.packages ce.1).getD [] = pkgs := by
      rw [hpkgs]
      rfl
    have hfacts := hpk (ce.1, pkgs) (alookup_mem _ _ _ hpkgs)
    refine ⟨?_, ?_, ?_, ?_, ?_⟩
    · rw [fsUnder_writtenFS db r d hs hce]
      exact isEmpty_false_of_ne_nil (categoryFiles_ne_nil _ _)
    · simp only [hgetd]
      exact writtenFS_lookup_tree db r d hs
        (mem_treeFiles_packagesJson db hce hpkgs)
    · simp only [hgetd]
      exact hfacts.1
    · simp only [hgetd]
      exact hfacts.2.1
    · simp only [hgetd]
      intro ne hne
      refine ⟨?_, (hfacts.2.2 ne hne).2.1, (hfacts.2.2 ne hne).2.2.1, ?_⟩
      · exact writtenFS_lookup_tree db r d hs
          (mem_treeFiles_versionsJson db hce hpkgs hne)
      · intro ve hve
        exact writtenFS_lookup_tree db r d hs
          (mem_treeFiles_version db hce hpkgs hne hve)

theorem resetUri_writtenFS (db : PkgDB) (r d : String) (hs : SaneTree db) :
    resetUri (writtenFS db r d) "" "" = (.ok (r, d), writtenFS db r d) := by
  rw [writtenFS_eq db r d hs]
  rfl

/-! ### Claim C3 -/

/-- C3 (amended): for every tree reachable through the API with each
    category non-empty and `os.path.join`-safe names (no separator in a
    category, package or version name; no version literally named
    "versions"), `write()` followed by `manifest()` and then `read()` on a
    fresh instance over the same directory reproduces the tree exactly:
    same `info`, same categories with descriptions, same package names,
    versions and metadata records.  The `manifest()` step is required:
    `read()` begins with `check_manifest`, which cannot succeed before a
    manifest has been computed (see the counterexample). -/
theorem c3_roundTrip (db : PkgDB) (r d : String) (hs : SaneTree db) :
    roundTrip db r d = .ok db := by
  have h1 := writeDB_skeleton db r d hs
  have h2 := manifestDB_fs1 db r d hs
  have h3 : resetUri ((skeletonFS r d ++ flatWrites db) ++
      [("manifest.json", JSON.obj (manifestOf db r d))]) "" "" =
      (.ok (r, d), (skeletonFS r d ++ flatWrites db) ++
        [("manifest.json", JSON.obj (manifestOf db r d))]) := by
    have h := resetUri_writtenFS db r d hs
    rwa [writtenFS_eq db r d hs] at h
  have h4 : readDB emptyPkgDB ((skeletonFS r d ++ flatWrites db) ++
      [("manifest.json", JSON.obj (manifestOf db r d))]) =
      (.ok db, (skeletonFS r d ++ flatWrites db) ++
        [("manifest.json", JSON.obj (manifestOf db r d))]) := by
    have h := readDB_writtenFS db r d hs
    rwa [writtenFS_eq db r d hs] at h
  simp only [roundTrip, h1, h2, h3, h4]

/-- Witness for C3 at the spec's sample tree. -/
theorem c3_roundTrip_witness :
    SaneTree sampleDB ∧ roundTrip sampleDB "repo" "db" = .ok sampleDB :=
  ⟨by decide, c3_roundTrip sampleDB "repo" "db" (by decide)⟩

/-- Counterexample to C3 as frozen: `write()` and then `read()` on a fresh
    instance, with no `manifest()` in between, fails — `read`'s
    `check_manifest` finds no `manifest.json`, `FileJSON.read` creates it
    empty, and the fixed-entry check raises the "Bad manifest" error —
    so the claim's pipeline cannot return the original tree. -/
theorem c3_roundTrip_counterexample :
    roundTripNoManifest sampleDB "repo" "db" =
      .error (Err.badManifest "info.json") := by
  decide

theorem nodup_manifestOf (db : PkgDB) (r d : String) (hs : SaneTree db) :
    (akeys (manifestOf db r d)).Nodup := by
  rw [akeys_manifestOf]
  rw [List.nodup_cons, List.nodup_cons, List.nodup_cons]
  refine ⟨?_, ?_, root_not_mem_treeFiles (by decide),
    nodup_treeFiles_keys db hs⟩
  · intro h
    rcases List.mem_cons.1 h with h | h
    · exact absurd h (by decide)
    rcases List.mem_cons.1 h with h | h
    · exact absurd h (by decide)
    · exact root_not_mem_treeFiles (by decide) h
  · intro h
    rcases List.mem_cons.1 h with h | h
    · exact absurd h (by decide)
    · exact root_not_mem_treeFiles (by decide) h

theorem manifestOf_key_ne_manifest (db : PkgDB) (r d : String) {p : String}
    (h : p ∈ akeys (manifestOf db r d)) : p ≠ "manifest.json" := by
  rw [akeys_manifestOf] at h
  rcases List.mem_cons.1 h with h | h
  · rw [h]; decide
  rcases List.mem_cons.1 h with h | h
  · rw [h]; decide
  rcases List.mem_cons.1 h with h | h
  · rw [h]; decide
  · obtain ⟨ce, _, rr, rfl⟩ := mem_treeFiles_keys_shape h
    exact Ne.symm (noSlash_ne_concat ce.1 rr (by decide))

theorem checkEntries_one_mismatch (fs : FS) (p : String) :
    ∀ (entries : List (String × JSON)),
      (akeys entries).Nodup →
      (∀ e ∈ entries, e.1 ≠ p → ∃ cq, alookup fs e.1 = some cq ∧
        e.2 = JSON.str (hashJ cq)) →
      ∀ v c2, (p, v) ∈ entries → alookup fs p = some c2 →
        v ≠ JSON.str (hashJ c2) →
      checkEntries fs entries = .ok [p] := by
  intro entries
  induction entries with
  | nil =>
    intro _ _ v c2 hmem _ _
    cases hmem
  | cons e t ih =>
    intro hnd hmatch v c2 hmem hlk hne
    have hcons : akeys (e :: t) = e.1 :: akeys t := rfl
    rw [hcons, List.nodup_cons] at hnd
    obtain ⟨name, value⟩ := e
    rcases List.mem_cons.1 hmem with heq | hmem2
    · injection heq with h1 h2
      subst h1
      subst h2
      have hrest : checkEntries fs t = .ok [] := by
        apply checkEntries_all_match
        intro e2 he2
        apply hmatch e2 (List.mem_cons_of_mem _ he2)
        intro heq2
        exact hnd.1 (heq2 ▸ List.mem_map.2 ⟨e2, he2, rfl⟩)
      simp only [checkEntries, hlk, hrest]
      rw [if_neg hne]
    · have hnep : name ≠ p := by
        intro heq2
        subst heq2
        exact hnd.1 (List.mem_map.2 ⟨(name, v), hmem2, rfl⟩)
      obtain ⟨cq, hlkh, hvh⟩ := hmatch (name, value)
        (List.mem_cons_self _ _) hnep
      have hrest := ih hnd.2
        (fun e2 he2 hne2 => hmatch e2 (List.mem_cons_of_mem _ he2) hne2)
        v c2 hmem2 hlk hne
      simp only [checkEntries, hlkh, hrest]
      rw [if_pos hvh]


/-! ### Claim C4 -/

/-- C4: after `write()` and `manifest()` on a clean directory (over any
    API-reachable sane tree), `check_manifest()` returns `(True, [])`; and
    replacing the content of exactly one tracked file — one listed in the
    manifest, with new content whose hash differs from the recorded one —
    makes `check_manifest()` return not-ok with the mismatch list holding
    exactly that file's relative path. -/
theorem c4_manifest_detects_corruption (db : PkgDB) (r d : String)
    (hs : SaneTree db) :
    checkManifest (writtenFS db r d) = (.ok (true, []), writtenFS db r d)
  ∧ ∀ (p : String) (v c2 : JSON),
      (p, v) ∈ manifestOf db r d → v ≠ JSON.str (hashJ c2) →
      checkManifest (ainsert (writtenFS db r d) p c2) =
        (.ok (false, [p]), ainsert (writtenFS db r d) p c2) := by
  refine ⟨checkManifest_writtenFS db r d hs, ?_⟩
  intro p v c2 hmem hne
  have hkey : p ∈ akeys (manifestOf db r d) :=
    List.mem_map.2 ⟨(p, v), hmem, rfl⟩
  have hpm : p ≠ "manifest.json" := manifestOf_key_ne_manifest db r d hkey
  have hm : alookup (ainsert (writtenFS db r d) p c2) "manifest.json" =
      some (.obj (manifestOf db r d)) := by
    rw [alookup_ainsert, if_neg (Ne.symm hpm)]
    exact writtenFS_lookup_manifest db r d hs
  have hread : fileJsonRead (ainsert (writtenFS db r d) p c2)
      "manifest.json" [] =
      (.ok (.obj (manifestOf db r d)), ainsert (writtenFS db r d) p c2) := by
    simp only [fileJsonRead, hm]
    rfl
  have hCE : checkEntries (ainsert (writtenFS db r d) p c2)
      (manifestOf db r d) = .ok [p] := by
    apply checkEntries_one_mismatch _ p (manifestOf db r d)
      (nodup_manifestOf db r d hs) ?_ v c2 hmem ?_ hne
    · intro e he hnep
      obtain ⟨cq, hl, hv⟩ := manifestOf_entries_match db r d hs e he
      refine ⟨cq, ?_, hv⟩
      rw [alookup_ainsert, if_neg hnep]
      exact hl
    · rw [alookup_ainsert, if_pos rfl]
  simp only [checkManifest, hread, fixed_find_none db r d, hCE]
  rfl

/-- Witness for C4: the spec's scenario — the sample tree, then corrupting
    `app-test/metadata_tester/0.1.json`. -/
theorem c4_manifest_detects_corruption_witness :
    checkManifest (writtenFS sampleDB "" "") =
      (.ok (true, []), writtenFS sampleDB "" "")
  ∧ checkManifest (ainsert (writtenFS sampleDB "" "")
      "app-test/metadata_tester/0.1.json" (.obj [])) =
      (.ok (false, ["app-test/metadata_tester/0.1.json"]),
       ainsert (writtenFS sampleDB "" "")
         "app-test/metadata_tester/0.1.json" (.obj [])) := by
  refine ⟨(c4_manifest_detects_corruption sampleDB "" "" (by decide)).1, ?_⟩
  exact (c4_manifest_detects_corruption sampleDB "" "" (by decide)).2
    "app-test/metadata_tester/0.1.json"
    (JSON.str (hashJ (.obj [("description", .str "testing ebuild")])))
    (.obj []) (by decide) (by decide)

theorem contains_eq_false_of_not_mem {l : List String} {a : String}
    (h : a ∉ l) : l.contains a = false := by
  cases hc : l.contains a with
  | false => rfl
  | true => exact absurd (mem_of_contains hc) h

theorem mismatchedEntries_cons (fs : FS) (name : String) (value : JSON)
    (t : List (String × JSON)) :
    mismatchedEntries fs ((name, value) :: t) =
      (match alookup fs name with
       | some c => if value = JSON.str (hashJ c) then mismatchedEntries fs t
                   else name :: mismatchedEntries fs t
       | none => name :: mismatchedEntries fs t) := by
  rw [mismatchedEntries, List.filter_cons]
  cases hlk : alookup fs name with
  | none => simp [hlk, mismatchedEntries]
  | some c =>
    by_cases hv : value = JSON.str (hashJ c)
    · simp [hlk, hv, mismatchedEntries]
    · simp [hlk, hv, mismatchedEntries]

theorem checkEntries_eq_mismatched (fs : FS) :
    ∀ (entries : List (String × JSON)),
      (∀ e ∈ entries, (alookup fs e.1).isSome = true) →
      checkEntries fs entries = .ok (mismatchedEntries fs entries) := by
  intro entries
  induction entries with
  | nil => intro _; rfl
  | cons e t ih =>
    intro hsome
    obtain ⟨c, hlk⟩ := Option.isSome_iff_exists.1
      (hsome e (List.mem_cons_self _ _))
    obtain ⟨name, value⟩ := e
    have hrest := ih (fun e2 h2 => hsome e2 (List.mem_cons_of_mem _ h2))
    rw [mismatchedEntries_cons fs name value t, hlk]
    simp only [checkEntries, hlk, hrest]

/-! ### Claim C5 -/

/-- C5 (amended): when the manifest file is absent, `check_manifest` does
    not raise a distinct missing-manifest error: `FileJSON.read` silently
    creates an empty `manifest.json`, and verification then fails with the
    malformed-manifest error for the first fixed entry (`info.json`).
    When the manifest is present but one of the three fixed top-level
    entries is missing, it fails with the malformed-manifest error naming
    a missing fixed entry.  Otherwise (all fixed entries present, every
    listed file readable) it returns ok iff no mismatch, together with the
    list of every listed path whose recomputed hash differs from the
    recorded one. -/
theorem c5_checkManifest_spec :
    (∀ fs : FS, alookup fs "manifest.json" = none →
        checkManifest fs = (.error (Err.badManifest "info.json"),
          ainsert fs "manifest.json" (.obj [])))
  ∧ (∀ (fs : FS) (m : AMap JSON) (n : String),
        alookup fs "manifest.json" = some (.obj m) →
        n ∈ fixedNames → n ∉ akeys m →
        ∃ n2, n2 ∈ fixedNames ∧ n2 ∉ akeys m ∧
          checkManifest fs = (.error (Err.badManifest n2), fs))
  ∧ (∀ (fs : FS) (m : AMap JSON),
        alookup fs "manifest.json" = some (.obj m) →
        (∀ n ∈ fixedNames, n ∈ akeys m) →
        (∀ e ∈ m, (alookup fs e.1).isSome = true) →
        checkManifest fs = (.ok ((mismatchedEntries fs m).isEmpty,
          mismatchedEntries fs m), fs)) := by
  refine ⟨?_, ?_, ?_⟩
  · intro fs h
    simp only [checkManifest, fileJsonRead, h]
    rfl
  · intro fs m n hm hn hnm
    have hread : fileJsonRead fs "manifest.json" [] = (.ok (.obj m), fs) := by
      simp only [fileJsonRead, hm]
      rfl
    cases hf : fixedNames.find? (fun n2 => !((akeys m).contains n2)) with
    | none =>
      rw [List.find?_eq_none] at hf
      have h2 := hf n hn
      rw [contains_eq_false_of_not_mem hnm] at h2
      exact absurd rfl h2
    | some n2 =>
      refine ⟨n2, List.mem_of_find?_eq_some hf, ?_, ?_⟩
      · have h2 := List.find?_some hf
        intro hmem
        rw [contains_of_mem hmem] at h2
        cases h2
      · simp only [checkManifest, hread, hf]
  · intro fs m hm hfix hall
    have hread : fileJsonRead fs "manifest.json" [] = (.ok (.obj m), fs) := by
      simp only [fileJsonRead, hm]
      rfl
    have hf : fixedNames.find? (fun n2 => !((akeys m).contains n2)) = none := by
      rw [List.find?_eq_none]
      intro n hn
      rw [show (akeys m).contains n = true from
        contains_of_mem (hfix n hn)]
      decide
    simp only [checkManifest, hread, hf, checkEntries_eq_mismatched fs m hall]

/-- Counterexample to C5 as frozen: with the manifest file absent, the
    code raises the malformed-manifest ("Bad manifest: no info.json
    entry") error — never a missing-manifest error — after silently
    creating an empty manifest file on disk. -/
theorem c5_checkManifest_counterexample :
    checkManifest (skeletonFS "" "") =
      (.error (Err.badManifest "info.json"),
       skeletonFS "" "" ++ [("manifest.json", .obj [])])
  ∧ (checkManifest (skeletonFS "" "")).1 ≠ .error Err.missingManifest := by
  constructor
  · decide
  · decide

/-- Witness for C5 at concrete inputs for each of the three cases. -/
theorem c5_checkManifest_spec_witness :
    checkManifest (skeletonFS "" "") =
      (.error (Err.badManifest "info.json"),
       ainsert (skeletonFS "" "") "manifest.json" (.obj []))
  ∧ (∃ n2, n2 ∈ fixedNames ∧
      n2 ∉ akeys ([("uri.json", JSON.str "h")] : AMap JSON) ∧
      checkManifest [("manifest.json", .obj [("uri.json", .str "h")])] =
        (.error (Err.badManifest n2),
         [("manifest.json", .obj [("uri.json", .str "h")])]))
  ∧ checkManifest
      [("manifest.json", .obj
         [("info.json", .str (hashJ (.str "x"))),
          ("categories.json", .str "stale"),
          ("uri.json", .str (hashJ (.obj [])))]),
       ("info.json", .str "x"),
       ("categories.json", .obj []),
       ("uri.json", .obj [])] =
      (.ok (false, ["categories.json"]),
       [("manifest.json", .obj
          [("info.json", .str (hashJ (.str "x"))),
           ("categories.json", .str "stale"),
           ("uri.json", .str (hashJ (.obj [])))]),
        ("info.json", .str "x"),
        ("categories.json", .obj []),
        ("uri.json", .obj [])]) := by
  refine ⟨?_, ?_, ?_⟩
  · exact c5_checkManifest_spec.1 (skeletonFS "" "") (by decide)
  · exact c5_checkManifest_spec.2.1
      [("manifest.json", .obj [("uri.json", .str "h")])]
      [("uri.json", .str "h")] "info.json" (by decide) (by decide) (by decide)
  · have h := c5_checkManifest_spec.2.2
      [("manifest.json", .obj
         [("info.json", .str (hashJ (.str "x"))),
          ("categories.json", .str "stale"),
          ("uri.json", .str (hashJ (.obj [])))]),
       ("info.json", .str "x"),
       ("categories.json", .obj []),
       ("uri.json", .obj [])]
      [("info.json", .str (hashJ (.str "x"))),
       ("categories.json", .str "stale"),
       ("uri.json", .str (hashJ (.obj [])))]
      (by decide) (by decide) (by decide)
    rw [h]
    decide

/-! ### Claim C1 -/

/-- C1 (contradicting the claim): a local directory holding a valid
    generated tree is synced against a staged remote tree whose manifest
    does not match its `info.json`.  Staged verification does report
    not-ok — first conjunct — but `sync` never raises at that point: the
    guard `if not tempdb.check_manifest():` tests a non-empty tuple, which
    is always truthy, and `self.clean()` already deleted the local tree at
    the very start of `sync`.  The corrupt staging tree is copied over the
    local directory and the failure only surfaces as the manifest error
    raised by the final `read()` — second conjunct — after which the local
    directory is not byte-identical to its pre-sync content — third
    conjunct. -/
theorem c1_sync_destroys_local_tree :
    (checkManifest (overlayFS (skeletonFS "" "") stagedBad)).1 =
      .ok (false, ["info.json"])
  ∧ (syncModel (writtenFS sampleDB "repo" "db") "repo" "db" stagedBad).1 =
      .error (Err.manifestError ["info.json"])
  ∧ (syncModel (writtenFS sampleDB "repo" "db") "repo" "db" stagedBad).2 ≠
      writtenFS sampleDB "repo" "db" := by
  refine ⟨by decide, by decide, by decide⟩
